import Mathlib

/-
Verification development for the usmu SMU driver
(sources: src/lib.rs, src/commands.rs, src/record_iv_curve.rs).

Rust machine floats (f32) are modelled as IEEE 754 binary32 bit patterns
with exact rational semantics; every arithmetic operation rounds its exact
rational result to nearest, ties to even, as IEEE 754 prescribes.

Exact rational values are carried by an unnormalized fraction type `Frac`
(integer numerator over natural denominator, no gcd normalization), so that
every definition in this file evaluates inside the Lean kernel; the bridge
to Mathlib rationals is `Frac.toRat`.
-/

set_option maxRecDepth 20000

/-- Unnormalized fraction: `num / den`. All operations keep denominators
positive and never normalize, so they reduce in the kernel. -/
structure Frac where
  num : ℤ
  den : ℕ
  deriving DecidableEq

/-- Rational value denoted by a fraction. -/
def Frac.toRat (f : Frac) : ℚ := (f.num : ℚ) / (f.den : ℚ)

def Frac.ofInt (n : ℤ) : Frac := ⟨n, 1⟩

def Frac.ofNat (n : ℕ) : Frac := ⟨(n : ℤ), 1⟩

def Frac.add (a b : Frac) : Frac := ⟨a.num * (b.den : ℤ) + b.num * (a.den : ℤ), a.den * b.den⟩

def Frac.neg (a : Frac) : Frac := ⟨-a.num, a.den⟩

def Frac.sub (a b : Frac) : Frac := a.add b.neg

def Frac.mul (a b : Frac) : Frac := ⟨a.num * b.num, a.den * b.den⟩

/-- Multiplicative inverse; keeps the denominator positive by moving the
sign to the numerator. Meaningful only when `a.num ≠ 0`. -/
def Frac.inv (a : Frac) : Frac :=
  if a.num < 0 then ⟨-(a.den : ℤ), a.num.natAbs⟩ else ⟨(a.den : ℤ), a.num.natAbs⟩

def Frac.div (a b : Frac) : Frac := a.mul b.inv

def Frac.ble (a b : Frac) : Bool := decide (a.num * (b.den : ℤ) ≤ b.num * (a.den : ℤ))

def Frac.blt (a b : Frac) : Bool := decide (a.num * (b.den : ℤ) < b.num * (a.den : ℤ))

/-- Floor of the denoted rational (integer division `/` on ℤ is floor
division for a natural denominator). -/
def Frac.floor (a : Frac) : ℤ := a.num / (a.den : ℤ)

/-- Power of two as a fraction, for any integer exponent. -/
def Frac.pow2 (e : ℤ) : Frac :=
  if 0 ≤ e then ⟨2 ^ e.toNat, 1⟩ else ⟨1, 2 ^ (-e).toNat⟩

/-- Power of ten as a fraction, for any integer exponent. -/
def Frac.pow10 (e : ℤ) : Frac :=
  if 0 ≤ e then ⟨10 ^ e.toNat, 1⟩ else ⟨1, 10 ^ (-e).toNat⟩

/-- Fuel-based discrete logarithm worker (structural recursion, so the
kernel can evaluate it; Mathlib's `Nat.log` is well-founded and cannot be
evaluated by `decide`). -/
def natLogGo (b : ℕ) : ℕ → ℕ → ℕ
  | 0, _ => 0
  | fuel + 1, n => if n < b then 0 else natLogGo b fuel (n / b) + 1

/-- Discrete logarithm: greatest `k` with `b ^ k ≤ n` (for `2 ≤ b`, `1 ≤ n`). -/
def natLog (b n : ℕ) : ℕ := natLogGo b n n

/-- IEEE 754 binary32 bit pattern: sign bit, 8-bit biased exponent,
23-bit fraction. This is the model of Rust's `f32` (and of the `uom`
f32-backed quantities `Voltage` / `Current` from src/lib.rs). -/
@[ext] structure F32 where
  sign : Bool
  ex : Fin 256
  frac : Fin 8388608
  deriving DecidableEq

/-- Magnitude (absolute value) denoted by a binary32 pattern, as an exact
rational: subnormals (biased exponent 0) are `frac ⬝ 2 ^ (-149)`, normals
are `(2 ^ 23 + frac) ⬝ 2 ^ (ex - 150)`. -/
def F32.mag (x : F32) : ℚ :=
  if x.ex.val = 0 then (x.frac.val : ℚ) * (2 : ℚ) ^ (-149 : ℤ)
  else ((8388608 + x.frac.val : ℕ) : ℚ) * (2 : ℚ) ^ ((x.ex.val : ℤ) - 150)

/-- Signed rational value denoted by a binary32 pattern. -/
def F32.val (x : F32) : ℚ := if x.sign then -x.mag else x.mag

/-- Exact value as a kernel-evaluable fraction (the same rational as
`F32.val`, uniformly scaled over the denominator `2 ^ 149`). -/
def F32.fval (x : F32) : Frac :=
  let m : ℤ :=
    if x.ex.val = 0 then (x.frac.val : ℤ)
    else (8388608 + x.frac.val : ℤ) * 2 ^ (x.ex.val - 1)
  ⟨if x.sign then -m else m, 2 ^ 149⟩

def F32.neg (x : F32) : F32 := ⟨!x.sign, x.ex, x.frac⟩

/-- Finite patterns (exponent 255 encodes infinities and NaNs). -/
def F32.IsFinite (x : F32) : Prop := x.ex.val < 255

/-- Positive zero bit pattern. -/
def pZeroF32 : F32 := ⟨false, 0, 0⟩

/-- Negative zero bit pattern. -/
def mZeroF32 : F32 := ⟨true, 0, 0⟩

/-- Positive infinity bit pattern (result of overflow / division by zero). -/
def infF32 : F32 := ⟨false, 255, 0⟩

/-- Binade exponent of a positive fraction `q`: the unique `e` with
`2 ^ e ≤ q < 2 ^ (e + 1)`. -/
def qexp (q : Frac) : ℤ :=
  let a : ℤ := (natLog 2 q.num.natAbs : ℤ)
  let b : ℤ := (natLog 2 q.den : ℤ)
  if (Frac.pow2 (a - b)).ble q then a - b else a - b - 1

/-- Round a fraction to the nearest integer, ties to even. -/
def rhe (q : Frac) : ℤ :=
  let n : ℤ := q.floor
  let r : Frac := q.sub (Frac.ofInt n)
  if r.blt ⟨1, 2⟩ then n
  else if Frac.blt ⟨1, 2⟩ r then n + 1
  else if n % 2 = 0 then n else n + 1

/-- Encode the rounding of a positive fraction `q` at binade exponent `e`
(already clamped to the subnormal range at `-126`): round the scaled
mantissa `q / 2 ^ (e - 23)` to nearest-even, carry if it overflows to
`2 ^ 24`, and pack exponent and fraction; overflow past exponent 127
yields infinity. -/
def encodeRound (q : Frac) (e : ℤ) : F32 :=
  let m0 : ℕ := (rhe (q.mul (Frac.pow2 (23 - e)))).toNat
  if m0 = 16777216 then
    if h2 : e + 1 ≤ 127 then ⟨false, ⟨(e + 1 + 127).toNat, by omega⟩, ⟨0, by omega⟩⟩
    else infF32
  else
    if h1 : m0 < 8388608 then ⟨false, ⟨0, by omega⟩, ⟨m0, h1⟩⟩
    else if h2 : e ≤ 127 ∧ m0 < 16777216 then
      ⟨false, ⟨(e + 127).toNat, by omega⟩, ⟨m0 - 8388608, by omega⟩⟩
    else infF32

/-- Correct rounding (to nearest, ties to even) of a positive fraction to
binary32. -/
def roundPos (q : Frac) : F32 := encodeRound q (max (qexp q) (-126))

/-- Correct rounding of an arbitrary fraction to binary32; an exact zero
becomes `+0`. -/
def roundF (q : Frac) : F32 :=
  if q.num = 0 then pZeroF32
  else if 0 < q.num then roundPos q
  else F32.neg (roundPos q.neg)

/-- Correct rounding of a parsed magnitude together with the sign read
from the text, so that a parsed `-0` keeps its sign bit. -/
def roundSigned (neg : Bool) (q : Frac) : F32 :=
  if q.num = 0 then ⟨neg, 0, 0⟩
  else if neg then F32.neg (roundPos q) else roundPos q

/-- IEEE 754 binary32 addition (round to nearest, ties to even); an exact
zero result from nonzero operands is `+0`, and `±0 + ±0` keeps a negative
sign only when both operands are negative zeros. -/
def addF32 (a b : F32) : F32 :=
  let s : Frac := a.fval.add b.fval
  if s.num = 0 then
    (if a.fval.num = 0 ∧ b.fval.num = 0 then ⟨a.sign && b.sign, 0, 0⟩ else pZeroF32)
  else roundF s

/-- IEEE 754 binary32 subtraction. -/
def subF32 (a b : F32) : F32 := addF32 a b.neg

/-- IEEE 754 binary32 multiplication; a zero result carries the xor of the
operand signs. -/
def mulF32 (a b : F32) : F32 :=
  let p : Frac := a.fval.mul b.fval
  if p.num = 0 then ⟨Bool.xor a.sign b.sign, 0, 0⟩ else roundF p

/-- IEEE 754 binary32 division; division by (either) zero yields a signed
infinity, a zero quotient carries the xor of the operand signs. -/
def divF32 (a b : F32) : F32 :=
  if b.fval.num = 0 then ⟨Bool.xor a.sign b.sign, 255, 0⟩
  else
    let p : Frac := a.fval.div b.fval
    if p.num = 0 then ⟨Bool.xor a.sign b.sign, 0, 0⟩ else roundF p

/-- Conversion of a natural number to binary32 (used for `F::from(i)` on
the linspace index and step count). -/
def natToF32 (n : ℕ) : F32 := roundF (Frac.ofNat n)

/-- The `<=` comparison on f32 (meaningful on the finite, non-NaN patterns
this development manipulates). -/
def F32.le (a b : F32) : Bool := a.fval.ble b.fval

/-- Numeric equality of two f32 patterns (`==` on floats: `-0.0 == 0.0`). -/
def F32.feq (a b : F32) : Bool := a.fval.ble b.fval && b.fval.ble a.fval

/-- Error taxonomy of the spec (section 7); `panicked` models a Rust
`assert!` / `unimplemented!` process abort, which is not an error value. -/
inductive ErrKind where
  | configurationError
  | unexpectedToken
  | trailingData
  | malformed
  | unsupportedOperation
  deriving DecidableEq

/-- Result of running a fallible (or panicking) piece of Rust code. -/
inductive Outcome (α : Type) where
  | ok (value : α)
  | err (e : ErrKind)
  | panicked
  deriving DecidableEq

/-- Digit test `'0' ≤ c && c ≤ '9'` on the character code. -/
def isDigitChar (c : Char) : Bool := decide (48 ≤ c.toNat) && decide (c.toNat ≤ 57)

/-- Value of a most-significant-first digit string. -/
def digitsVal (l : List Char) : ℕ := l.foldl (fun a c => 10 * a + (c.toNat - 48)) 0

/-- Modelled from the spec: the numeric deserializer of the `scpi_client`
crate (not under src/), which reads back floats "via the same
single-precision path" (spec 4.1): it consumes an unsigned decimal token —
digits, optionally a point and fraction digits — and leaves the rest of
the line. Returns the exact rational magnitude read. -/
def parseUnsigned (l : List Char) : Option (Frac × List Char) :=
  let ids := l.takeWhile isDigitChar
  let r2 := l.dropWhile isDigitChar
  if r2.head? = some '.' then
    let fds := r2.tail.takeWhile isDigitChar
    let r3 := r2.tail.dropWhile isDigitChar
    if ids.isEmpty && fds.isEmpty then none
    else some (⟨((digitsVal ids * 10 ^ fds.length + digitsVal fds : ℕ) : ℤ), 10 ^ fds.length⟩, r3)
  else
    if ids.isEmpty then none else some (⟨((digitsVal ids : ℕ) : ℤ), 1⟩, r2)

/-- Modelled from the spec: sign handling of the decimal number grammar
(an optional leading minus before the unsigned token). -/
def parseDecRat (input : List Char) : Option (Bool × Frac × List Char) :=
  let neg : Bool := decide (input.head? = some '-')
  let r1 := if neg then input.tail else input
  match parseUnsigned r1 with
  | none => none
  | some (q, rest) => some (neg, q, rest)

/-- Modelled from the spec: `f32` deserialization (spec 4.1, "read back via
the same single-precision path"): parse the decimal token exactly and round
it correctly to binary32 (Rust's float parsing is correctly rounded). -/
def parseF32 (input : List Char) : Outcome (F32 × List Char) :=
  match parseDecRat input with
  | none => Outcome.err ErrKind.malformed
  | some (neg, q, rest) => Outcome.ok (roundSigned neg q, rest)

def digitChar (v : ℕ) : Char := Char.ofNat (v + 48)

/-- Little-endian decimal digits of `n` (fuel-based structural recursion). -/
def natDigitsRev : ℕ → ℕ → List ℕ
  | 0, _ => []
  | fuel + 1, n => if n = 0 then [] else n % 10 :: natDigitsRev fuel (n / 10)

/-- Decimal digit characters of `n`, most significant first (empty for 0).
The fuel 400 covers every number appearing in binary32 formatting. -/
def natChars (n : ℕ) : List Char := ((natDigitsRev 400 n).reverse).map digitChar

/-- Remove trailing decimal zeros from a significand, moving them into the
exponent (`d * 10 ^ p` is preserved). -/
def stripZerosGo : ℕ → ℕ → ℤ → ℕ × ℤ
  | 0, d, p => (d, p)
  | fuel + 1, d, p =>
    if d % 10 = 0 ∧ 10 ≤ d then stripZerosGo fuel (d / 10) (p + 1) else (d, p)

def stripZeros (d : ℕ) (p : ℤ) : ℕ × ℤ := stripZerosGo 400 d p

/-- Render the decimal `d * 10 ^ p` in plain (never scientific) notation,
the way Rust's float `Display` lays digits out: trailing zeros before the
point, a point inside the digits, or a leading `0.` with padding zeros. -/
def renderBody (d : ℕ) (p : ℤ) : List Char :=
  let ds := natChars d
  if 0 ≤ p then ds ++ List.replicate p.toNat '0'
  else if (-p).toNat < ds.length then
    ds.take (ds.length - (-p).toNat) ++ '.' :: ds.drop (ds.length - (-p).toNat)
  else '0' :: '.' :: (List.replicate ((-p).toNat - ds.length) '0' ++ ds)

/-- Render `(-1) ^ s * d * 10 ^ p` with the optional sign. -/
def renderPlain (s : Bool) (d : ℕ) (p : ℤ) : List Char :=
  if s then '-' :: renderBody d p else renderBody d p

/-- Render after stripping trailing zeros of the significand. -/
def renderPair (s : Bool) (d : ℕ) (p : ℤ) : List Char :=
  renderPlain s (stripZeros d p).1 (stripZeros d p).2

/-- Decimal binade exponent of a positive fraction: the unique `e` with
`10 ^ e ≤ q < 10 ^ (e + 1)`. -/
def q10exp (q : Frac) : ℤ :=
  let a : ℤ := (natLog 10 q.num.natAbs : ℤ)
  let b : ℤ := (natLog 10 q.den : ℤ)
  if (Frac.pow10 (a - b)).ble q then a - b else a - b - 1

/-- Nearest decimal to `q` with `k` significant digits, as a significand /
exponent pair (with carry when rounding overflows to `10 ^ k`). -/
def decimalApprox (q : Frac) (k : ℕ) : ℕ × ℤ :=
  let p : ℤ := q10exp q - (k : ℤ) + 1
  let d : ℕ := (rhe (q.mul (Frac.pow10 (-p)))).toNat
  if d = 10 ^ k then (10 ^ (k - 1), p + 1) else (d, p)

/-- Exact decimal representation of the magnitude of a finite binary32
pattern (every dyadic rational has a finite decimal expansion). -/
def exactPair (x : F32) : ℕ × ℤ :=
  let m : ℕ := if x.ex.val = 0 then x.frac.val else 8388608 + x.frac.val
  let t : ℤ := if x.ex.val = 0 then -149 else (x.ex.val : ℤ) - 150
  if 0 ≤ t then (m * 2 ^ t.toNat, 0) else (m * 5 ^ (-t).toNat, t)

/-- Candidate decimal representations for formatting a nonzero finite
binary32 value: the nearest decimals with 1, 2, ... significant digits,
then the exact decimal expansion as the always-successful fallback. -/
def formatCands (x : F32) : List (ℕ × ℤ) :=
  ((List.range 150).map fun k =>
    decimalApprox ⟨(x.fval.num.natAbs : ℤ), x.fval.den⟩ (k + 1)) ++ [exactPair x]

/-- Check that a candidate decimal parses back to exactly the bit pattern
being formatted, consuming the whole string. -/
def formatOk (x : F32) (c : ℕ × ℤ) : Bool :=
  decide (parseF32 (renderPair x.sign c.1 c.2) = Outcome.ok (x, []))

/-- Modelled from the spec: the numeric formatter (Rust's `format!` float
`Display`, used by `FormatVolt` / `FormatMilliAmpere` in src/commands.rs
and by `scpi_client`'s f32 serializer), which the spec requires to emit "a
minimal-round-trip decimal representation of the binary floating value"
(spec 4.1): the shortest decimal whose correctly rounded parse reproduces
the bit pattern, searched by significant-digit count; the exact decimal
expansion is the always-successful fallback. -/
def format32 (x : F32) : List Char :=
  if x.fval.num = 0 then (if x.sign then ['-', '0'] else ['0'])
  else
    match (formatCands x).find? (formatOk x) with
    | some c => renderPair x.sign c.1 c.2
    | none => renderPair x.sign (exactPair x).1 (exactPair x).2

/-- Value of the f32 literal `1e-9` from the repository's round-trip test
(src/commands.rs, `float_conversion_is_reasonably_lossless`). -/
def oneNanoAmp : F32 := roundF ⟨1, 1000000000⟩

/-- The f32 value of `uom`'s milliampere conversion coefficient `1.0E-3`
(src/lib.rs stores `Current` in ampere; `Current::new::<milliampere>(v)`
multiplies by this coefficient and `get::<milliampere>()` divides by it). -/
def milliampereCoefficient : F32 := roundF ⟨1, 1000⟩

/-- Construction `Current::new::<milliampere>(x)`: store `x * 1.0E-3` amperes. -/
def currentFromMilliamps (x : F32) : F32 := mulF32 x milliampereCoefficient

/-- Retrieval `limit.get::<milliampere>()`: divide the stored amperes by the
coefficient. -/
def currentGetMilliamps (c : F32) : F32 := divF32 c milliampereCoefficient

/-- The f32 literal `40.0` from the current-limit assertion. -/
def f40F32 : F32 := roundF ⟨40, 1⟩

/-- Command `CH1:CUR` payload (src/commands.rs lines 49-64). -/
structure SetCurrentLimitRequest where
  limit : F32
  deriving DecidableEq

/-- Constructor of `SetCurrentLimitRequest` (src/commands.rs lines 59-63):
`assert!(limit.is_sign_positive())` then
`assert!(limit.get::<milliampere>() <= 40.0)`; a failing assert is a
process abort (`panicked`), not an error value. -/
def SetCurrentLimitRequest.new (limit : F32) : Outcome SetCurrentLimitRequest :=
  if limit.sign = false then
    if F32.le (currentGetMilliamps limit) f40F32 then Outcome.ok ⟨limit⟩
    else Outcome.panicked
  else Outcome.panicked

/-- Command `ILIM` payload (src/commands.rs lines 149-151). -/
structure SetCurrentLimitDacRequest where
  level : ℕ
  deriving DecidableEq

/-- Constructor of `SetCurrentLimitDacRequest` (src/commands.rs lines
154-157): `assert!(level >> 12 == 0)`. -/
def SetCurrentLimitDacRequest.new (level : ℕ) : Outcome SetCurrentLimitDacRequest :=
  if level >>> 12 = 0 then Outcome.ok ⟨level⟩ else Outcome.panicked

/-- Command `DAC` payload (src/commands.rs lines 104-106): a plain struct
with a public `level` field and no constructor check at all. -/
structure SetVoltageDacRequest where
  level : ℕ
  deriving DecidableEq

/-- Wire serialization of `DAC <n>` (src/commands.rs line 107). -/
def serializeSetVoltageDac (r : SetVoltageDacRequest) : List Char :=
  ['D', 'A', 'C', ' '] ++ natChars r.level

/-- Wire serialization of `ILIM <n>` (src/commands.rs line 159). -/
def serializeSetCurrentLimitDac (r : SetCurrentLimitDacRequest) : List Char :=
  ['I', 'L', 'I', 'M', ' '] ++ natChars r.level

/-- Serializer `FormatVolt` (src/commands.rs lines 9-17): `get::<volt>()`
is an exact identity (coefficient 1.0), then format. -/
def serializeFormatVolt (v : F32) : List Char := format32 v

/-- Serializer `FormatMilliAmpere` (src/commands.rs lines 25-33):
`get::<milliampere>()` then format. -/
def serializeFormatMilliAmpere (c : F32) : List Char :=
  format32 (currentGetMilliamps c)

/-- Wire serialization of `CH1:CUR <mA>` (src/commands.rs lines 65-68). -/
def serializeSetCurrentLimit (r : SetCurrentLimitRequest) : List Char :=
  ['C', 'H', '1', ':', 'C', 'U', 'R', ' '] ++ serializeFormatMilliAmpere r.limit

/-- Modelled from the spec: `scpi_client::match_literal` (not under src/):
"a fixed mnemonic or separator string must match exactly (case-sensitive)
or decoding fails with UnexpectedToken" (spec 4.1). -/
def matchLiteral (lit input : List Char) : Outcome (List Char) :=
  if input.take lit.length = lit then Outcome.ok (input.drop lit.length)
  else Outcome.err ErrKind.unexpectedToken

/-- Modelled from the spec: `scpi_client::check_empty` (not under src/):
"decoding must detect any unconsumed trailing content ... and fail with
TrailingData" (spec 4.1). -/
def checkEmpty (input : List Char) : Outcome Unit :=
  if input = [] then Outcome.ok () else Outcome.err ErrKind.trailingData

/-- Decoding part of `MicroSmu::query` (src/lib.rs lines 101-108): after
reading one line, deserialize the response, then `match_literal(&mut data,
"\n")`, then `check_empty(data)`. -/
def queryDecode {α : Type} (deser : List Char → Outcome (α × List Char))
    (line : List Char) : Outcome α :=
  match deser line with
  | Outcome.ok (r, rest) =>
    match matchLiteral ['\n'] rest with
    | Outcome.ok rest2 =>
      match checkEmpty rest2 with
      | Outcome.ok _ => Outcome.ok r
      | Outcome.err e => Outcome.err e
      | Outcome.panicked => Outcome.panicked
    | Outcome.err e => Outcome.err e
    | Outcome.panicked => Outcome.panicked
  | Outcome.err e => Outcome.err e
  | Outcome.panicked => Outcome.panicked

/-- Response of `CH1:MEA:VOL` (src/commands.rs lines 82-85). -/
structure MeasureResponse where
  voltage : F32
  current : F32
  deriving DecidableEq

/-- Deserializer of `MeasureResponse` (src/commands.rs lines 86-95):
an f32 voltage, the literal comma, an f32 current. The `Voltage::new::<volt>`
and `Current::new::<ampere>` wrappers multiply by the exact coefficient 1.0. -/
def deserMeasure (input : List Char) : Outcome (MeasureResponse × List Char) :=
  match parseF32 input with
  | Outcome.ok (v, r1) =>
    match matchLiteral [','] r1 with
    | Outcome.ok r2 =>
      match parseF32 r2 with
      | Outcome.ok (c, r3) => Outcome.ok (⟨v, c⟩, r3)
      | Outcome.err e => Outcome.err e
      | Outcome.panicked => Outcome.panicked
    | Outcome.err e => Outcome.err e
    | Outcome.panicked => Outcome.panicked
  | Outcome.err e => Outcome.err e
  | Outcome.panicked => Outcome.panicked

/-- A serial port candidate after the vendor/product filter, paired with
the best-effort identity string read in `SmuConnectionParameter::connect`
(src/record_iv_curve.rs lines 83-94); a failed identity read carries the
placeholder text instead. -/
structure PortCandidate where
  portName : List Char
  serial : List Char
  deriving DecidableEq

/-- Result of `SmuConnectionParameter::connect`: the two `anyhow` error
paths (no port found / multiple ambiguous ports), the `assert_eq!` abort,
or a connection to the selected port. -/
inductive ConnectOutcome where
  | notFound
  | ambiguous (candidates : List PortCandidate)
  | panicked
  | connected (c : PortCandidate)
  deriving DecidableEq

/-- Selection logic of `SmuConnectionParameter::connect`
(src/record_iv_curve.rs lines 80-128): error when the filtered port list
is empty; error (listing candidates) when several ports exist and neither
selector is given; retain ports whose path equals the `--port` selector
and whose identity equals the `--serial-number` selector; then
`assert_eq!(ports.len(), 1)` and take the first. -/
def connect (ports : List PortCandidate) (portSel serialSel : Option (List Char)) :
    ConnectOutcome :=
  if ports.isEmpty then ConnectOutcome.notFound
  else if 1 < ports.length ∧ portSel = none ∧ serialSel = none then
    ConnectOutcome.ambiguous ports
  else
    let p1 := match portSel with
      | some p => ports.filter fun c => decide (c.portName = p)
      | none => ports
    let p2 := match serialSel with
      | some s => p1.filter fun c => decide (c.serial = s)
      | none => p1
    match p2 with
    | [c] => ConnectOutcome.connected c
    | _ => ConnectOutcome.panicked

/-- Commands sent over the session during a sweep or an EEPROM write
(src/lib.rs wrapper methods). -/
inductive Cmd where
  | setVoltage (v : F32)
  | setCurrentLimit (limit : F32)
  | enable
  | setOverSampleRate (samples : ℕ)
  | measure (v : F32)
  | disable
  deriving DecidableEq

/-- The method `MicroSmu::write_eeprom` (src/lib.rs lines 192-194): its body
is `unimplemented!(...)`, an unconditional abort; nothing is ever sent. -/
def writeEeprom (_address : ℕ) (_value : F32) : Outcome Unit × List Cmd :=
  (Outcome.panicked, [])

/-- Sweep configuration (src/record_iv_curve.rs lines 38-58). The inter-step
delay only feeds `sleep`, which is outside the shallow embedding (real
time); it is carried for completeness. -/
structure IvCurveRecordingParameters where
  start_voltage : F32
  end_voltage : F32
  voltage_steps : ℕ
  current_limit : F32
  over_sampling : ℕ
  delay : Frac
  deriving DecidableEq

/-- Step of `ndarray::linspace(a, b, n)`: `(b - a) / (n - 1)` in f32 when
`n > 1`, otherwise zero. -/
def linspaceStep (a b : F32) (n : ℕ) : F32 :=
  if 1 < n then divF32 (subF32 b a) (natToF32 (n - 1)) else pZeroF32

/-- Point `i` of the `ndarray` linspace iterator: `start + step * i` in f32. -/
def linspacePoint (a step : F32) (i : ℕ) : F32 := addF32 a (mulF32 step (natToF32 i))

/-- The `n` values yielded by `ndarray::linspace(a, b, n)`. -/
def linspaceF32 (a b : F32) (n : ℕ) : List F32 :=
  (List.range n).map (linspacePoint a (linspaceStep a b n))

/-- Per-step commands of the sweep loop: set the voltage, then measure at
the same set-point (src/record_iv_curve.rs lines 140-151). -/
def sweepCmds (pts : List F32) : List Cmd :=
  (pts.map fun v => [Cmd.setVoltage v, Cmd.measure v]).flatten

/-- The sweep `IvCurveRecordingParameters::record` (src/record_iv_curve.rs
lines 132-156), run against an ideal device whose reply to the `i`-th
measurement is `resp i`: set the start voltage, set the current limit
(whose constructor may abort), enable, set the oversample rate; then for
each linspace set-point set the voltage and measure; finally disable.
Returns the issued command trace and the collected samples. -/
def record (p : IvCurveRecordingParameters) (resp : ℕ → F32 × F32) :
    Outcome (List Cmd × List (F32 × F32)) :=
  match SetCurrentLimitRequest.new p.current_limit with
  | Outcome.ok _ =>
    Outcome.ok
      ([Cmd.setVoltage p.start_voltage, Cmd.setCurrentLimit p.current_limit,
        Cmd.enable, Cmd.setOverSampleRate p.over_sampling]
        ++ sweepCmds (linspaceF32 p.start_voltage p.end_voltage p.voltage_steps)
        ++ [Cmd.disable],
       (List.range p.voltage_steps).map resp)
  | Outcome.err e => Outcome.err e
  | Outcome.panicked => Outcome.panicked

/-- The set-points at which the trace issues measurement requests. -/
def measurePoints (l : List Cmd) : List F32 :=
  l.filterMap fun c => match c with
    | Cmd.measure v => some v
    | _ => none

/-- Measurement set-points of a successful sweep (empty when the sweep
aborts or fails). -/
def recordedSetpoints (p : IvCurveRecordingParameters) (resp : ℕ → F32 × F32) :
    List F32 :=
  match record p resp with
  | Outcome.ok (tr, _) => measurePoints tr
  | _ => []

/-- The f32 value 1.0. -/
def fOneF32 : F32 := ⟨false, 127, 0⟩

/-- The f32 value -1.0. -/
def fNegOneF32 : F32 := ⟨true, 127, 0⟩

/-- The default current limit `20 mA` of the sweep CLI. -/
def fTwentyMilliAmps : F32 := currentFromMilliamps (roundF ⟨20, 1⟩)

/-- An ideal device whose every measurement reply is `0 V, 0 A`. -/
def respZeroDevice : ℕ → F32 × F32 := fun _ => (pZeroF32, pZeroF32)

/-- The default sweep configuration: -1 V to 1 V in 50 steps, 20 mA,
oversampling 10, no delay. -/
def sweepConfig50 : IvCurveRecordingParameters :=
  ⟨fNegOneF32, fOneF32, 50, fTwentyMilliAmps, 10, Frac.ofNat 0⟩

/-- A sweep from 0 V to 1 V in 48 steps (same limit and oversampling). -/
def sweepConfig48 : IvCurveRecordingParameters :=
  ⟨pZeroF32, fOneF32, 48, fTwentyMilliAmps, 10, Frac.ofNat 0⟩

/-- A sweep with zero voltage steps. -/
def sweepConfig0 : IvCurveRecordingParameters :=
  ⟨fNegOneF32, fOneF32, 0, fTwentyMilliAmps, 10, Frac.ofNat 0⟩

/-- The f32 value 0.99999994 (the largest float below 1.0). -/
def f32BelowOne : F32 := ⟨false, 126, 8388607⟩

/-- Example discovery candidates. -/
def portA : PortCandidate := ⟨['t', 't', 'y', '0'], ['1']⟩

def portB : PortCandidate := ⟨['t', 't', 'y', '1'], ['2']⟩

def portB1 : PortCandidate := ⟨['t', 't', 'y', '1'], ['1']⟩

/-- The measurement reply line `1.5,0.002` with its terminator. -/
def measureLine : List Char := ['1', '.', '5', ',', '0', '.', '0', '0', '2', '\n']

/-- The f32 value 1.5. -/
def f32OnePointFive : F32 := ⟨false, 127, 4194304⟩

/-- The f32 value nearest 0.002. -/
def f32TwoMilli : F32 := roundF ⟨2, 1000⟩

/-! Bridge lemmas between `Frac` and ℚ. -/

theorem Frac.toRat_mul (a b : Frac) : (a.mul b).toRat = a.toRat * b.toRat := by
  unfold Frac.mul Frac.toRat
  push_cast
  rw [div_mul_div_comm]

theorem Frac.toRat_neg (a : Frac) : a.neg.toRat = -a.toRat := by
  unfold Frac.neg Frac.toRat
  push_cast
  rw [neg_div]

theorem Frac.toRat_add (a b : Frac) (ha : a.den ≠ 0) (hb : b.den ≠ 0) :
    (a.add b).toRat = a.toRat + b.toRat := by
  unfold Frac.add Frac.toRat
  have ha' : ((a.den : ℚ)) ≠ 0 := Nat.cast_ne_zero.mpr ha
  have hb' : ((b.den : ℚ)) ≠ 0 := Nat.cast_ne_zero.mpr hb
  push_cast
  field_simp

theorem Frac.toRat_sub (a b : Frac) (ha : a.den ≠ 0) (hb : b.den ≠ 0) :
    (a.sub b).toRat = a.toRat - b.toRat := by
  unfold Frac.sub
  rw [Frac.toRat_add a b.neg ha hb, Frac.toRat_neg, sub_eq_add_neg]

theorem Frac.toRat_ofInt (n : ℤ) : (Frac.ofInt n).toRat = (n : ℚ) := by
  unfold Frac.ofInt Frac.toRat
  norm_num

theorem Frac.toRat_ofNat (n : ℕ) : (Frac.ofNat n).toRat = (n : ℚ) := by
  unfold Frac.ofNat Frac.toRat
  norm_num

theorem Frac.toRat_pow2 (e : ℤ) : (Frac.pow2 e).toRat = (2 : ℚ) ^ e := by
  unfold Frac.pow2 Frac.toRat
  split_ifs with h
  · have : ((2 ^ e.toNat : ℤ) : ℚ) = (2 : ℚ) ^ e := by
      push_cast
      rw [← zpow_natCast, Int.toNat_of_nonneg h]
    rw [this]
    norm_num
  · have : ((2 ^ (-e).toNat : ℕ) : ℚ) = (2 : ℚ) ^ (-e) := by
      push_cast
      rw [← zpow_natCast, Int.toNat_of_nonneg (by omega : (0:ℤ) ≤ -e)]
    rw [this]
    norm_num

theorem Frac.toRat_pow10 (e : ℤ) : (Frac.pow10 e).toRat = (10 : ℚ) ^ e := by
  unfold Frac.pow10 Frac.toRat
  split_ifs with h
  · have : ((10 ^ e.toNat : ℤ) : ℚ) = (10 : ℚ) ^ e := by
      push_cast
      rw [← zpow_natCast, Int.toNat_of_nonneg h]
    rw [this]
    norm_num
  · have : ((10 ^ (-e).toNat : ℕ) : ℚ) = (10 : ℚ) ^ (-e) := by
      push_cast
      rw [← zpow_natCast, Int.toNat_of_nonneg (by omega : (0:ℤ) ≤ -e)]
    rw [this]
    norm_num

theorem Frac.toRat_inv (a : Frac) : a.inv.toRat = a.toRat⁻¹ := by
  have habsNeg : a.num < 0 → ((a.num.natAbs : ℕ) : ℚ) = -((a.num : ℚ)) := by
    intro h
    rw [Int.cast_natAbs]
    exact_mod_cast abs_of_neg h
  have habsPos : 0 ≤ a.num → ((a.num.natAbs : ℕ) : ℚ) = ((a.num : ℚ)) := by
    intro h
    rw [Int.cast_natAbs]
    exact_mod_cast abs_of_nonneg h
  unfold Frac.inv Frac.toRat
  split_ifs with h
  · dsimp only
    rw [habsNeg h, inv_div]
    push_cast
    rw [neg_div_neg_eq]
  · dsimp only
    rw [habsPos (by omega), inv_div]
    push_cast
    rfl

theorem Frac.toRat_div (a b : Frac) : (a.div b).toRat = a.toRat / b.toRat := by
  unfold Frac.div
  rw [Frac.toRat_mul, Frac.toRat_inv, div_eq_mul_inv]

theorem Frac.floor_toRat (a : Frac) : a.floor = ⌊a.toRat⌋ := by
  unfold Frac.floor Frac.toRat
  exact (Rat.floor_intCast_div_natCast a.num a.den).symm

theorem Frac.ble_iff (a b : Frac) (ha : 0 < a.den) (hb : 0 < b.den) :
    a.ble b = true ↔ a.toRat ≤ b.toRat := by
  unfold Frac.ble Frac.toRat
  rw [decide_eq_true_iff]
  rw [div_le_div_iff₀ (by exact_mod_cast ha) (by exact_mod_cast hb)]
  constructor
  · intro h; exact_mod_cast h
  · intro h; exact_mod_cast h

theorem Frac.blt_iff (a b : Frac) (ha : 0 < a.den) (hb : 0 < b.den) :
    a.blt b = true ↔ a.toRat < b.toRat := by
  unfold Frac.blt Frac.toRat
  rw [decide_eq_true_iff]
  rw [div_lt_div_iff₀ (by exact_mod_cast ha) (by exact_mod_cast hb)]
  constructor
  · intro h; exact_mod_cast h
  · intro h; exact_mod_cast h

theorem Frac.toRat_eq_zero_iff (a : Frac) (ha : 0 < a.den) : a.toRat = 0 ↔ a.num = 0 := by
  unfold Frac.toRat
  rw [div_eq_zero_iff]
  constructor
  · rintro (h | h)
    · exact_mod_cast h
    · exact absurd (by exact_mod_cast h) (by omega)
  · intro h
    left
    exact_mod_cast h

theorem Frac.toRat_pos_iff (a : Frac) (ha : 0 < a.den) : 0 < a.toRat ↔ 0 < a.num := by
  unfold Frac.toRat
  have hd : (0:ℚ) < (a.den : ℚ) := by exact_mod_cast ha
  rw [div_pos_iff]
  constructor
  · rintro (⟨h1, _⟩ | ⟨_, h2⟩)
    · exact_mod_cast h1
    · linarith
  · intro h
    exact Or.inl ⟨by exact_mod_cast h, hd⟩

theorem Frac.pow2_den_pos (e : ℤ) : 0 < (Frac.pow2 e).den := by
  unfold Frac.pow2
  split_ifs <;> dsimp only <;> positivity

theorem natLogGo_spec (b : ℕ) (hb : 1 < b) :
    ∀ fuel n, n ≠ 0 → n < b ^ fuel →
      b ^ natLogGo b fuel n ≤ n ∧ n < b ^ (natLogGo b fuel n + 1) := by
  intro fuel
  induction fuel with
  | zero =>
    intro n h0 hlt
    simp at hlt
    omega
  | succ fuel ih =>
    intro n h0 hlt
    simp only [natLogGo]
    split_ifs with h
    · constructor
      · simpa using Nat.one_le_iff_ne_zero.mpr h0
      · simpa using h
    · have hble : b ≤ n := by omega
      have hdiv0 : n / b ≠ 0 := by
        have h1 : 1 ≤ n / b := (Nat.one_le_div_iff (by omega)).mpr hble
        omega
      have hdivlt : n / b < b ^ fuel := by
        rw [Nat.div_lt_iff_lt_mul (by omega : 0 < b)]
        calc n < b ^ (fuel + 1) := hlt
          _ = b ^ fuel * b := by rw [pow_succ]
      obtain ⟨l, u⟩ := ih (n / b) hdiv0 hdivlt
      constructor
      · calc b ^ (natLogGo b fuel (n / b) + 1)
            = b * b ^ natLogGo b fuel (n / b) := by ring
          _ ≤ b * (n / b) := Nat.mul_le_mul_left b l
          _ ≤ n := by
              have := Nat.div_mul_le_self n b
              calc b * (n / b) = n / b * b := by ring
                _ ≤ n := Nat.div_mul_le_self n b
      · have hmlt : n % b < b := Nat.mod_lt n (by omega)
        calc n = b * (n / b) + n % b := (Nat.div_add_mod n b).symm
          _ < b * (n / b) + b := by omega
          _ = b * (n / b + 1) := by ring
          _ ≤ b * b ^ (natLogGo b fuel (n / b) + 1) := Nat.mul_le_mul_left b (by omega)
          _ = b ^ (natLogGo b fuel (n / b) + 1 + 1) := by ring

theorem natLog_spec (b n : ℕ) (hb : 1 < b) (hn : n ≠ 0) :
    b ^ natLog b n ≤ n ∧ n < b ^ (natLog b n + 1) := by
  apply natLogGo_spec b hb n n hn
  calc n < 2 ^ n := Nat.lt_two_pow n
    _ ≤ b ^ n := Nat.pow_le_pow_left (by omega) n

theorem qexp_spec (q : Frac) (hden : 0 < q.den) (hnum : 0 < q.num) :
    (2 : ℚ) ^ qexp q ≤ q.toRat ∧ q.toRat < 2 ^ (qexp q + 1) := by
  simp only [qexp]
  have hN0 : q.num.natAbs ≠ 0 := by omega
  have hD0 : q.den ≠ 0 := by omega
  obtain ⟨hNl, hNu⟩ := natLog_spec 2 q.num.natAbs one_lt_two hN0
  obtain ⟨hDl, hDu⟩ := natLog_spec 2 q.den one_lt_two hD0
  set a := natLog 2 q.num.natAbs with ha
  set b := natLog 2 q.den with hb
  have hQd : (0:ℚ) < (q.den : ℚ) := by exact_mod_cast hden
  have hNcast : ((q.num.natAbs : ℕ) : ℚ) = (q.num : ℚ) := by
    rw [Int.cast_natAbs]
    exact_mod_cast abs_of_nonneg (by omega : (0:ℤ) ≤ q.num)
  have htr : q.toRat = ((q.num.natAbs : ℕ) : ℚ) / (q.den : ℚ) := by
    unfold Frac.toRat
    rw [hNcast]
  have hN1 : (2:ℚ) ^ (a : ℤ) ≤ ((q.num.natAbs : ℕ) : ℚ) := by
    rw [zpow_natCast]
    exact_mod_cast hNl
  have hN2 : ((q.num.natAbs : ℕ) : ℚ) < 2 ^ ((a : ℤ) + 1) := by
    rw [show ((a : ℤ) + 1) = (((a + 1 : ℕ)) : ℤ) by push_cast; ring, zpow_natCast]
    exact_mod_cast hNu
  have hD1 : (2:ℚ) ^ (b : ℤ) ≤ (q.den : ℚ) := by
    rw [zpow_natCast]
    exact_mod_cast hDl
  have hD2 : ((q.den : ℕ) : ℚ) < 2 ^ ((b : ℤ) + 1) := by
    rw [show ((b : ℤ) + 1) = (((b + 1 : ℕ)) : ℤ) by push_cast; ring, zpow_natCast]
    exact_mod_cast hDu
  have hup : q.toRat < 2 ^ ((a : ℤ) - b + 1) := by
    rw [htr, div_lt_iff₀ hQd]
    calc ((q.num.natAbs : ℕ) : ℚ) < 2 ^ ((a : ℤ) + 1) := hN2
      _ = 2 ^ ((a : ℤ) - b + 1) * 2 ^ (b : ℤ) := by
          rw [← zpow_add₀ (two_ne_zero)]
          congr 1
          ring
      _ ≤ 2 ^ ((a : ℤ) - b + 1) * (q.den : ℚ) :=
          mul_le_mul_of_nonneg_left hD1 (by positivity)
  have hlow : 2 ^ ((a : ℤ) - b - 1) < q.toRat := by
    rw [htr, lt_div_iff₀ hQd]
    calc (2:ℚ) ^ ((a : ℤ) - b - 1) * (q.den : ℚ)
        < 2 ^ ((a : ℤ) - b - 1) * 2 ^ ((b : ℤ) + 1) :=
          mul_lt_mul_of_pos_left hD2 (by positivity)
      _ = 2 ^ ((a : ℤ)) := by
          rw [← zpow_add₀ two_ne_zero]
          congr 1
          ring
      _ ≤ ((q.num.natAbs : ℕ) : ℚ) := hN1
  split_ifs with hble
  · constructor
    · have h1 := (Frac.ble_iff (Frac.pow2 ((a : ℤ) - b)) q (Frac.pow2_den_pos _) hden).mp hble
      rw [Frac.toRat_pow2] at h1
      exact h1
    · exact hup
  · constructor
    · exact hlow.le
    · have hlt : q.toRat < 2 ^ ((a : ℤ) - b) := by
        by_contra hc
        exact hble ((Frac.ble_iff (Frac.pow2 ((a : ℤ) - b)) q (Frac.pow2_den_pos _) hden).mpr
          (by rw [Frac.toRat_pow2]; linarith))
      rw [show ((a : ℤ) - b - 1 + 1) = (a : ℤ) - b by ring]
      exact hlt

theorem qexp_unique (q : Frac) (hden : 0 < q.den) (hnum : 0 < q.num) (e : ℤ)
    (h1 : (2:ℚ) ^ e ≤ q.toRat) (h2 : q.toRat < 2 ^ (e + 1)) : qexp q = e := by
  obtain ⟨g1, g2⟩ := qexp_spec q hden hnum
  by_contra hne
  rcases lt_or_gt_of_ne hne with h | h
  · have hle : (2:ℚ) ^ (qexp q + 1) ≤ 2 ^ e := zpow_le_zpow_right₀ one_le_two (by omega)
    linarith
  · have hle : (2:ℚ) ^ (e + 1) ≤ 2 ^ qexp q := zpow_le_zpow_right₀ one_le_two (by omega)
    linarith

theorem rhe_eq_int (q : Frac) (hden : 0 < q.den) (m : ℤ) (hv : q.toRat = (m : ℚ)) :
    rhe q = m := by
  have hfloor : q.floor = m := by
    rw [Frac.floor_toRat, hv, Int.floor_intCast]
  have hsubden : 0 < (q.sub (Frac.ofInt m)).den := by
    show 0 < q.den * 1
    omega
  have hr : (q.sub (Frac.ofInt m)).toRat = 0 := by
    rw [Frac.toRat_sub q _ (by omega) one_ne_zero, hv, Frac.toRat_ofInt]
    ring
  have hblt : (q.sub (Frac.ofInt m)).blt ⟨1, 2⟩ = true := by
    apply (Frac.blt_iff _ _ hsubden (by norm_num)).mpr
    rw [hr]
    show (0:ℚ) < Frac.toRat ⟨1, 2⟩
    norm_num [Frac.toRat]
  simp only [rhe]
  rw [hfloor, hblt]
  simp

theorem F32.mag_nonneg (x : F32) : 0 ≤ x.mag := by
  unfold F32.mag
  split_ifs <;> positivity

theorem F32.mag_eq_zero_iff (x : F32) : x.mag = 0 ↔ (x.ex.val = 0 ∧ x.frac.val = 0) := by
  unfold F32.mag
  split_ifs with h
  · constructor
    · intro hz
      rcases mul_eq_zero.mp hz with h3 | h3
      · exact ⟨h, by exact_mod_cast h3⟩
      · exact absurd h3 (by positivity)
    · rintro ⟨_, h2⟩
      rw [h2]
      norm_num
  · constructor
    · intro hz
      exfalso
      rcases mul_eq_zero.mp hz with h3 | h3
      · have : ((8388608 + x.frac.val : ℕ) : ℚ) ≠ 0 := by positivity
        exact this h3
      · exact absurd h3 (by positivity)
    · rintro ⟨h1, _⟩
      exact absurd h1 h

theorem F32.val_eq_zero_iff (x : F32) : x.val = 0 ↔ x.mag = 0 := by
  unfold F32.val
  split_ifs <;> simp

theorem F32.fval_den_pos (x : F32) : 0 < x.fval.den := by
  show (0 : ℕ) < 2 ^ 149
  positivity

theorem F32.fval_toRat (x : F32) : x.fval.toRat = x.val := by
  obtain ⟨s, e, f⟩ := x
  have key : ∀ m : ℤ, Frac.toRat ⟨m, 2 ^ 149⟩ = (m : ℚ) * 2 ^ (-149 : ℤ) := by
    intro m
    unfold Frac.toRat
    rw [Nat.cast_pow]
    rw [show (((2 : ℕ)) : ℚ) = (2 : ℚ) from by norm_num]
    rw [show ((-149 : ℤ)) = -((149 : ℕ) : ℤ) from by norm_num]
    rw [zpow_neg, zpow_natCast, div_eq_mul_inv]
  have hsplit : F32.fval ⟨s, e, f⟩ =
      ⟨(if s
          then -(if e.val = 0 then (f.val : ℤ) else (8388608 + f.val : ℤ) * 2 ^ (e.val - 1))
          else (if e.val = 0 then (f.val : ℤ) else (8388608 + f.val : ℤ) * 2 ^ (e.val - 1))),
        2 ^ 149⟩ := rfl
  rw [hsplit, key]
  unfold F32.val F32.mag
  dsimp only
  by_cases he : e.val = 0
  · rw [if_pos he, if_pos he]
    cases s
    · simp only [Bool.false_eq_true, if_false]
      push_cast
      ring
    · simp only [if_true]
      push_cast
      ring
  · rw [if_neg he, if_neg he]
    have hexp : ((e.val - 1 : ℕ) : ℤ) + (-149 : ℤ) = (e.val : ℤ) - 150 := by
      omega
    cases s
    · simp only [Bool.false_eq_true, if_false]
      push_cast
      rw [← zpow_natCast (2 : ℚ) (e.val - 1), mul_assoc,
        ← zpow_add₀ (two_ne_zero : (2:ℚ) ≠ 0), hexp]
    · simp only [if_true]
      push_cast
      rw [← zpow_natCast (2 : ℚ) (e.val - 1), neg_mul, mul_assoc,
        ← zpow_add₀ (two_ne_zero : (2:ℚ) ≠ 0), hexp]

theorem F32.fval_num_eq_zero_iff (x : F32) :
    x.fval.num = 0 ↔ (x.ex.val = 0 ∧ x.frac.val = 0) := by
  rw [← Frac.toRat_eq_zero_iff x.fval (F32.fval_den_pos x), F32.fval_toRat,
    F32.val_eq_zero_iff, F32.mag_eq_zero_iff]

theorem roundPos_eq (x : F32) (q : Frac) (hden : 0 < q.den) (hval : q.toRat = x.mag)
    (hfin : x.ex.val < 255) (hnz : ¬(x.ex.val = 0 ∧ x.frac.val = 0)) :
    roundPos q = ⟨false, x.ex, x.frac⟩ := by
  have hmag0 : x.mag ≠ 0 := fun h => hnz ((F32.mag_eq_zero_iff x).mp h)
  have hmagpos : 0 < x.mag := lt_of_le_of_ne (F32.mag_nonneg x) (Ne.symm hmag0)
  have hnum : 0 < q.num := (Frac.toRat_pos_iff q hden).mp (by rw [hval]; exact hmagpos)
  have hfr := x.frac.isLt
  by_cases he : x.ex.val = 0
  · have hmag : x.mag = (x.frac.val : ℚ) * 2 ^ (-149 : ℤ) := by
      unfold F32.mag
      rw [if_pos he]
    have hflt : (x.frac.val : ℚ) < 8388608 := by exact_mod_cast hfr
    have hsmall : x.mag < 2 ^ (-126 : ℤ) := by
      rw [hmag]
      calc (x.frac.val : ℚ) * 2 ^ (-149 : ℤ) < 8388608 * 2 ^ (-149 : ℤ) :=
            mul_lt_mul_of_pos_right hflt (by positivity)
        _ = 2 ^ (-126 : ℤ) := by
            rw [show (8388608 : ℚ) = 2 ^ (23 : ℤ) from by norm_num,
              ← zpow_add₀ (two_ne_zero : (2:ℚ) ≠ 0)]
            norm_num
    have hqe : qexp q ≤ -127 := by
      obtain ⟨g1, _⟩ := qexp_spec q hden hnum
      by_contra hc
      have h1 : (2:ℚ) ^ (-126 : ℤ) ≤ 2 ^ qexp q := zpow_le_zpow_right₀ one_le_two (by omega)
      rw [hval] at g1
      linarith
    have hmax : max (qexp q) (-126 : ℤ) = -126 := by omega
    unfold roundPos
    rw [hmax]
    have hsden : 0 < (q.mul (Frac.pow2 (23 - (-126 : ℤ)))).den := by
      show 0 < q.den * (Frac.pow2 (23 - (-126 : ℤ))).den
      have := Frac.pow2_den_pos (23 - (-126 : ℤ))
      positivity
    have hsval : (q.mul (Frac.pow2 (23 - (-126 : ℤ)))).toRat = ((x.frac.val : ℤ) : ℚ) := by
      rw [Frac.toRat_mul, Frac.toRat_pow2, hval, hmag, mul_assoc,
        ← zpow_add₀ (two_ne_zero : (2:ℚ) ≠ 0)]
      norm_num
    have hm := rhe_eq_int _ hsden _ hsval
    have hm0 : (rhe (q.mul (Frac.pow2 (23 - (-126 : ℤ))))).toNat = x.frac.val := by
      rw [hm, Int.toNat_natCast]
    simp only [encodeRound]
    split_ifs with h1 h2 h3
    · omega
    · omega
    · refine F32.ext rfl ?_ ?_
      · apply Fin.ext
        show (0 : ℕ) = x.ex.val
        omega
      · apply Fin.ext
        exact hm0
    · omega
    · omega
  · have he1 : 1 ≤ x.ex.val := by omega
    have hmag : x.mag = ((8388608 + x.frac.val : ℕ) : ℚ) * 2 ^ ((x.ex.val : ℤ) - 150) := by
      unfold F32.mag
      rw [if_neg he]
    have hMl : (2:ℚ) ^ (23 : ℤ) ≤ ((8388608 + x.frac.val : ℕ) : ℚ) := by
      rw [show ((2:ℚ) ^ (23 : ℤ)) = 8388608 from by norm_num]
      exact_mod_cast (by omega : 8388608 ≤ 8388608 + x.frac.val)
    have hMu : ((8388608 + x.frac.val : ℕ) : ℚ) < 2 ^ (24 : ℤ) := by
      rw [show ((2:ℚ) ^ (24 : ℤ)) = 16777216 from by norm_num]
      exact_mod_cast (by omega : 8388608 + x.frac.val < 16777216)
    have hbr1 : (2:ℚ) ^ ((x.ex.val : ℤ) - 127) ≤ x.mag := by
      rw [hmag, show ((x.ex.val : ℤ) - 127) = 23 + ((x.ex.val : ℤ) - 150) from by ring,
        zpow_add₀ (two_ne_zero : (2:ℚ) ≠ 0)]
      exact mul_le_mul_of_nonneg_right hMl (by positivity)
    have hbr2 : x.mag < 2 ^ ((x.ex.val : ℤ) - 127 + 1) := by
      rw [hmag, show ((x.ex.val : ℤ) - 127 + 1) = 24 + ((x.ex.val : ℤ) - 150) from by ring,
        zpow_add₀ (two_ne_zero : (2:ℚ) ≠ 0)]
      exact mul_lt_mul_of_pos_right hMu (by positivity)
    have hqe : qexp q = (x.ex.val : ℤ) - 127 :=
      qexp_unique q hden hnum _ (by rw [hval]; exact hbr1) (by rw [hval]; exact hbr2)
    have hmax : max (qexp q) (-126 : ℤ) = (x.ex.val : ℤ) - 127 := by
      rw [hqe]
      omega
    unfold roundPos
    rw [hmax]
    have hsden : 0 < (q.mul (Frac.pow2 (23 - ((x.ex.val : ℤ) - 127)))).den := by
      show 0 < q.den * (Frac.pow2 (23 - ((x.ex.val : ℤ) - 127))).den
      have := Frac.pow2_den_pos (23 - ((x.ex.val : ℤ) - 127))
      positivity
    have hsval : (q.mul (Frac.pow2 (23 - ((x.ex.val : ℤ) - 127)))).toRat =
        (((8388608 + x.frac.val : ℕ) : ℤ) : ℚ) := by
      rw [Frac.toRat_mul, Frac.toRat_pow2, hval, hmag, mul_assoc,
        ← zpow_add₀ (two_ne_zero : (2:ℚ) ≠ 0)]
      rw [show ((x.ex.val : ℤ) - 150 + (23 - ((x.ex.val : ℤ) - 127))) = 0 from by ring]
      push_cast
      ring
    have hm := rhe_eq_int _ hsden _ hsval
    have hm0 : (rhe (q.mul (Frac.pow2 (23 - ((x.ex.val : ℤ) - 127))))).toNat =
        8388608 + x.frac.val := by
      rw [hm, Int.toNat_natCast]
    simp only [encodeRound]
    split_ifs with h1 h2 h3
    · omega
    · omega
    · omega
    · refine F32.ext rfl ?_ ?_
      · apply Fin.ext
        show ((x.ex.val : ℤ) - 127 + 127).toNat = x.ex.val
        omega
      · apply Fin.ext
        show (rhe (q.mul (Frac.pow2 (23 - ((x.ex.val : ℤ) - 127))))).toNat - 8388608 =
          x.frac.val
        omega
    · omega

theorem roundSigned_eq (x : F32) (q : Frac) (hden : 0 < q.den) (hval : q.toRat = x.mag)
    (hfin : x.ex.val < 255) (hnz : ¬(x.ex.val = 0 ∧ x.frac.val = 0)) :
    roundSigned x.sign q = x := by
  have hmag0 : x.mag ≠ 0 := fun h => hnz ((F32.mag_eq_zero_iff x).mp h)
  have hmagpos : 0 < x.mag := lt_of_le_of_ne (F32.mag_nonneg x) (Ne.symm hmag0)
  have hnum : 0 < q.num := (Frac.toRat_pos_iff q hden).mp (by rw [hval]; exact hmagpos)
  have hr := roundPos_eq x q hden hval hfin hnz
  unfold roundSigned
  rw [if_neg (by omega)]
  obtain ⟨s, e, f⟩ := x
  cases s
  · simp only [Bool.false_eq_true, if_false]
    exact hr
  · simp only [if_true]
    rw [hr]
    rfl

/-! Digit-list lemmas for the parse / render inverse. -/

theorem natDigitsRev_lt (fuel : ℕ) : ∀ n, ∀ v ∈ natDigitsRev fuel n, v < 10 := by
  induction fuel with
  | zero =>
    intro n v hv
    simp [natDigitsRev] at hv
  | succ fuel ih =>
    intro n v hv
    simp only [natDigitsRev] at hv
    split_ifs at hv with h
    · simp at hv
    · rcases List.mem_cons.mp hv with h1 | h1
      · subst h1
        exact Nat.mod_lt n (by norm_num)
      · exact ih (n / 10) v h1

theorem digitChar_toNat (v : ℕ) (h : v < 10) : (digitChar v).toNat = v + 48 := by
  interval_cases v <;> decide

theorem isDigitChar_digitChar (v : ℕ) (h : v < 10) : isDigitChar (digitChar v) = true := by
  interval_cases v <;> decide

theorem digitsVal_foldl (l : List Char) :
    ∀ a : ℕ, l.foldl (fun a c => 10 * a + (c.toNat - 48)) a = a * 10 ^ l.length + digitsVal l := by
  induction l with
  | nil =>
    intro a
    simp [digitsVal]
  | cons c t ih =>
    intro a
    show List.foldl _ (10 * a + (c.toNat - 48)) t = a * 10 ^ (t.length + 1) + digitsVal (c :: t)
    have h1 := ih (10 * a + (c.toNat - 48))
    have h2 : digitsVal (c :: t) = (c.toNat - 48) * 10 ^ t.length + digitsVal t := by
      show List.foldl _ (10 * 0 + (c.toNat - 48)) t = _
      rw [ih (10 * 0 + (c.toNat - 48))]
      ring_nf
    rw [h1, h2]
    ring

theorem digitsVal_append (l1 l2 : List Char) :
    digitsVal (l1 ++ l2) = digitsVal l1 * 10 ^ l2.length + digitsVal l2 := by
  show List.foldl _ 0 (l1 ++ l2) = _
  rw [List.foldl_append]
  show List.foldl _ (digitsVal l1) l2 = _
  rw [digitsVal_foldl]

theorem digitsVal_natDigitsRev (fuel : ℕ) :
    ∀ n, n < 10 ^ fuel → digitsVal (((natDigitsRev fuel n).reverse).map digitChar) = n := by
  induction fuel with
  | zero =>
    intro n h
    have : n = 0 := by simpa using h
    subst this
    rfl
  | succ fuel ih =>
    intro n h
    by_cases h0 : n = 0
    · subst h0
      rfl
    · have hstep : natDigitsRev (fuel + 1) n = n % 10 :: natDigitsRev fuel (n / 10) := by
        simp only [natDigitsRev]
        rw [if_neg h0]
      rw [hstep]
      simp only [List.reverse_cons, List.map_append, List.map_cons, List.map_nil]
      rw [digitsVal_append]
      have hdivlt : n / 10 < 10 ^ fuel := by
        rw [Nat.div_lt_iff_lt_mul (by norm_num : 0 < 10)]
        calc n < 10 ^ (fuel + 1) := h
          _ = 10 ^ fuel * 10 := by rw [pow_succ]
      rw [ih (n / 10) hdivlt]
      have hone : digitsVal [digitChar (n % 10)] = n % 10 := by
        show 10 * 0 + ((digitChar (n % 10)).toNat - 48) = n % 10
        rw [digitChar_toNat (n % 10) (Nat.mod_lt n (by norm_num))]
        omega
      rw [hone]
      simp only [List.length_cons, List.length_nil]
      omega

theorem digitsVal_natChars (n : ℕ) (h : n < 10 ^ 400) : digitsVal (natChars n) = n :=
  digitsVal_natDigitsRev 400 n h

theorem natChars_digits (n : ℕ) : ∀ c ∈ natChars n, isDigitChar c = true := by
  intro c hc
  unfold natChars at hc
  rcases List.mem_map.mp hc with ⟨v, hv, rfl⟩
  exact isDigitChar_digitChar v (natDigitsRev_lt 400 n v (List.mem_reverse.mp hv))

theorem natChars_ne_nil (n : ℕ) (h : 1 ≤ n) : natChars n ≠ [] := by
  unfold natChars
  have hstep : natDigitsRev 400 n = n % 10 :: natDigitsRev 399 (n / 10) := by
    show (if n = 0 then [] else n % 10 :: natDigitsRev 399 (n / 10)) = _
    rw [if_neg (by omega)]
  rw [hstep]
  simp

theorem takeWhile_append_all (p : Char → Bool) (l1 l2 : List Char)
    (h : ∀ c ∈ l1, p c = true) : (l1 ++ l2).takeWhile p = l1 ++ l2.takeWhile p := by
  induction l1 with
  | nil => simp
  | cons c t ih =>
    simp only [List.cons_append, List.takeWhile_cons]
    rw [h c (by simp)]
    simp only [if_true]
    rw [ih (fun x hx => h x (by simp [hx]))]

theorem dropWhile_append_all (p : Char → Bool) (l1 l2 : List Char)
    (h : ∀ c ∈ l1, p c = true) : (l1 ++ l2).dropWhile p = l2.dropWhile p := by
  induction l1 with
  | nil => simp
  | cons c t ih =>
    simp only [List.cons_append, List.dropWhile_cons]
    rw [h c (by simp)]
    simp only [if_true]
    exact ih (fun x hx => h x (by simp [hx]))

theorem takeWhile_all (p : Char → Bool) (l : List Char) (h : ∀ c ∈ l, p c = true) :
    l.takeWhile p = l := by
  have h1 := takeWhile_append_all p l [] h
  simpa using h1

theorem dropWhile_all (p : Char → Bool) (l : List Char) (h : ∀ c ∈ l, p c = true) :
    l.dropWhile p = [] := by
  have h1 := dropWhile_append_all p l [] h
  simpa using h1

theorem digitsVal_replicate_zero (k : ℕ) : digitsVal (List.replicate k '0') = 0 := by
  induction k with
  | zero => rfl
  | succ k ih => exact ih

theorem replicate_zero_digits (k : ℕ) : ∀ c ∈ List.replicate k '0', isDigitChar c = true := by
  intro c hc
  rw [List.eq_of_mem_replicate hc]
  decide

theorem parseUnsigned_digits (l : List Char) (hne : l ≠ [])
    (h : ∀ c ∈ l, isDigitChar c = true) :
    parseUnsigned l = some (⟨((digitsVal l : ℕ) : ℤ), 1⟩, []) := by
  simp only [parseUnsigned]
  rw [takeWhile_all _ _ h, dropWhile_all _ _ h]
  rw [if_neg (by simp)]
  rw [if_neg (by simpa [List.isEmpty_iff] using hne)]

theorem parseUnsigned_point (ids fds : List Char) (hne : ids ≠ [])
    (hdi : ∀ c ∈ ids, isDigitChar c = true) (hdf : ∀ c ∈ fds, isDigitChar c = true) :
    parseUnsigned (ids ++ '.' :: fds) =
      some (⟨((digitsVal ids * 10 ^ fds.length + digitsVal fds : ℕ) : ℤ),
        10 ^ fds.length⟩, []) := by
  simp only [parseUnsigned]
  rw [takeWhile_append_all _ _ _ hdi, dropWhile_append_all _ _ _ hdi]
  rw [show ('.' :: fds).takeWhile isDigitChar = [] from rfl]
  rw [show ('.' :: fds).dropWhile isDigitChar = '.' :: fds from rfl]
  rw [List.append_nil]
  rw [if_pos (show ('.' :: fds).head? = some '.' from rfl)]
  rw [show ('.' :: fds).tail = fds from rfl]
  rw [takeWhile_all _ _ hdf, dropWhile_all _ _ hdf]
  have h1 : ids.isEmpty = false := by
    cases ids with
    | nil => exact absurd rfl hne
    | cons a t => rfl
  rw [h1]
  rw [Bool.false_and]
  rw [if_neg (by simp)]

theorem parseDecRat_render (s : Bool) (body : List Char) (cHead : Char) (tl : List Char)
    (hbody : body = cHead :: tl) (hd : isDigitChar cHead = true)
    (q : Frac) (rest : List Char) (h : parseUnsigned body = some (q, rest)) :
    parseDecRat (if s then '-' :: body else body) = some (s, q, rest) := by
  have hcne : cHead ≠ '-' := by
    intro he
    subst he
    exact absurd hd (by decide)
  cases s
  · simp only [Bool.false_eq_true, if_false]
    simp only [parseDecRat]
    rw [hbody]
    have hdec : decide ((cHead :: tl).head? = some '-') = false := by
      simp [hcne]
    rw [hdec]
    simp only [Bool.false_eq_true, if_false]
    rw [← hbody, h]
  · simp only [if_true]
    simp only [parseDecRat]
    have hdec : decide (('-' :: body).head? = some '-') = true := by simp
    rw [hdec]
    simp only [if_true]
    rw [show ('-' :: body).tail = body from rfl, h]

theorem toRat_mkPow10 (n k : ℕ) :
    Frac.toRat ⟨(n : ℤ), 10 ^ k⟩ = (n : ℚ) / ((10 : ℚ) ^ k) := by
  unfold Frac.toRat
  rw [Int.cast_natCast, Nat.cast_pow]
  norm_num

theorem renderBody_parses (d : ℕ) (p : ℤ) (hd : 1 ≤ d) (hb : d < 10 ^ 400) :
    ∃ f : Frac, parseUnsigned (renderBody d p) = some (f, []) ∧ 0 < f.den ∧
      f.toRat = (d : ℚ) * 10 ^ p ∧
      ∃ c tl, renderBody d p = c :: tl ∧ isDigitChar c = true := by
  obtain ⟨c0, t0, hds⟩ := List.exists_cons_of_ne_nil (natChars_ne_nil d hd)
  have hdigs := natChars_digits d
  have hdval := digitsVal_natChars d hb
  have hc0 : isDigitChar c0 = true := hdigs c0 (by rw [hds]; simp)
  simp only [renderBody]
  split_ifs with hp hlen
  · -- trailing zeros: natChars d ++ zeros
    have hall : ∀ c ∈ natChars d ++ List.replicate p.toNat '0', isDigitChar c = true := by
      intro c hc
      rcases List.mem_append.mp hc with h1 | h1
      · exact hdigs c h1
      · exact replicate_zero_digits _ c h1
    have hne : natChars d ++ List.replicate p.toNat '0' ≠ [] := by
      rw [hds]
      simp
    refine ⟨_, parseUnsigned_digits _ hne hall, by norm_num, ?_, ?_⟩
    · show Frac.toRat ⟨((digitsVal (natChars d ++ List.replicate p.toNat '0') : ℕ) : ℤ), 1⟩ = _
      rw [show (1 : ℕ) = 10 ^ 0 from rfl, toRat_mkPow10]
      rw [digitsVal_append, digitsVal_replicate_zero, hdval, List.length_replicate]
      push_cast
      rw [← zpow_natCast (10 : ℚ) p.toNat, Int.toNat_of_nonneg hp]
      norm_num
    · refine ⟨c0, t0 ++ List.replicate p.toNat '0', ?_, hc0⟩
      rw [hds]
      rfl
  · -- point inside the digits
    set fnum := (-p).toNat with hfnum
    set k := (natChars d).length - fnum with hk
    have hkpos : 1 ≤ k := by omega
    have hdT : ∀ c ∈ (natChars d).take k, isDigitChar c = true := fun c hc =>
      hdigs c (List.take_subset k (natChars d) hc)
    have hdD : ∀ c ∈ (natChars d).drop k, isDigitChar c = true := fun c hc =>
      hdigs c (List.drop_subset k (natChars d) hc)
    have hTne : (natChars d).take k ≠ [] := by
      have : ((natChars d).take k).length = k := by
        rw [List.length_take]
        omega
      intro hnil
      rw [hnil] at this
      simp at this
      omega
    have hDlen : ((natChars d).drop k).length = fnum := by
      rw [List.length_drop]
      omega
    refine ⟨_, parseUnsigned_point _ _ hTne hdT hdD, by positivity, ?_, ?_⟩
    · rw [hDlen]
      show Frac.toRat ⟨((digitsVal ((natChars d).take k) * 10 ^ fnum +
        digitsVal ((natChars d).drop k) : ℕ) : ℤ), 10 ^ fnum⟩ = _
      rw [toRat_mkPow10]
      have hTD : digitsVal ((natChars d).take k) * 10 ^ fnum +
          digitsVal ((natChars d).drop k) = d := by
        have happ := digitsVal_append ((natChars d).take k) ((natChars d).drop k)
        rw [List.take_append_drop] at happ
        rw [hdval] at happ
        rw [hDlen] at happ
        omega
      rw [hTD]
      have hp' : ((fnum : ℕ) : ℤ) = -p := Int.toNat_of_nonneg (by omega)
      rw [show ((10 : ℚ) ^ p) = ((10 : ℚ) ^ (fnum : ℕ))⁻¹ from by
        rw [← zpow_natCast (10 : ℚ) fnum, hp', ← zpow_neg, neg_neg]]
      rw [div_eq_mul_inv]
    · obtain ⟨k1, hk1⟩ : ∃ k1, k = k1 + 1 := ⟨k - 1, by omega⟩
      refine ⟨c0, (t0.take k1) ++ '.' :: (natChars d).drop k, ?_, hc0⟩
      rw [hds, hk1, List.take_succ_cons]
      rfl
  · -- leading zeros: 0.00...0digits
    set fnum := (-p).toNat with hfnum
    set z := fnum - (natChars d).length with hz
    have hall : ∀ c ∈ List.replicate z '0' ++ natChars d, isDigitChar c = true := by
      intro c hc
      rcases List.mem_append.mp hc with h1 | h1
      · exact replicate_zero_digits _ c h1
      · exact hdigs c h1
    have hpoint := parseUnsigned_point ['0'] (List.replicate z '0' ++ natChars d)
      (by simp) (by intro c hc; simp at hc; subst hc; decide) hall
    refine ⟨_, hpoint, by positivity, ?_, ?_⟩
    · have hflen : (List.replicate z '0' ++ natChars d).length = fnum := by
        rw [List.length_append, List.length_replicate]
        omega
      rw [hflen]
      have hnum2 : digitsVal ['0'] * 10 ^ fnum +
          digitsVal (List.replicate z '0' ++ natChars d) = d := by
        have h0 : digitsVal ['0'] = 0 := rfl
        rw [h0, digitsVal_append, digitsVal_replicate_zero, hdval]
        omega
      show Frac.toRat ⟨((digitsVal ['0'] * 10 ^ fnum +
        digitsVal (List.replicate z '0' ++ natChars d) : ℕ) : ℤ), 10 ^ fnum⟩ = _
      rw [hnum2, toRat_mkPow10]
      have hp' : ((fnum : ℕ) : ℤ) = -p := Int.toNat_of_nonneg (by omega)
      rw [show ((10 : ℚ) ^ p) = ((10 : ℚ) ^ (fnum : ℕ))⁻¹ from by
        rw [← zpow_natCast (10 : ℚ) fnum, hp', ← zpow_neg, neg_neg]]
      rw [div_eq_mul_inv]
    · exact ⟨'0', '.' :: (List.replicate z '0' ++ natChars d), rfl, by decide⟩

theorem parseF32_renderPlain (s : Bool) (d : ℕ) (p : ℤ) (hd : 1 ≤ d) (hb : d < 10 ^ 400) :
    ∃ f : Frac, parseF32 (renderPlain s d p) = Outcome.ok (roundSigned s f, []) ∧
      0 < f.den ∧ f.toRat = (d : ℚ) * 10 ^ p := by
  obtain ⟨f, hparse, hden, hval, c, tl, hcons, hdigit⟩ := renderBody_parses d p hd hb
  refine ⟨f, ?_, hden, hval⟩
  have hdec := parseDecRat_render s (renderBody d p) c tl hcons hdigit f [] hparse
  unfold renderPlain parseF32
  rw [hdec]

theorem stripZerosGo_spec (fuel : ℕ) : ∀ (d : ℕ) (p : ℤ), 1 ≤ d →
    1 ≤ (stripZerosGo fuel d p).1 ∧ (stripZerosGo fuel d p).1 ≤ d ∧
      (((stripZerosGo fuel d p).1 : ℕ) : ℚ) * 10 ^ (stripZerosGo fuel d p).2 =
        (d : ℚ) * 10 ^ p := by
  induction fuel with
  | zero =>
    intro d p hd
    exact ⟨hd, le_refl d, rfl⟩
  | succ fuel ih =>
    intro d p hd
    simp only [stripZerosGo]
    split_ifs with h
    · obtain ⟨hc1, hc2⟩ := h
      have hd10 : 1 ≤ d / 10 := (Nat.one_le_div_iff (by norm_num)).mpr hc2
      obtain ⟨g1, g2, g3⟩ := ih (d / 10) (p + 1) hd10
      refine ⟨g1, le_trans g2 (Nat.div_le_self d 10), ?_⟩
      rw [g3]
      have hmul : (d / 10) * 10 = d := Nat.div_mul_cancel (Nat.dvd_of_mod_eq_zero hc1)
      calc ((d / 10 : ℕ) : ℚ) * 10 ^ (p + 1)
          = (((d / 10) * 10 : ℕ) : ℚ) * 10 ^ p := by
            push_cast
            rw [zpow_add₀ (by norm_num : (10:ℚ) ≠ 0), zpow_one]
            ring
        _ = (d : ℚ) * 10 ^ p := by rw [hmul]
    · exact ⟨hd, le_refl d, rfl⟩

theorem stripZeros_spec (d : ℕ) (p : ℤ) (hd : 1 ≤ d) :
    1 ≤ (stripZeros d p).1 ∧ (stripZeros d p).1 ≤ d ∧
      (((stripZeros d p).1 : ℕ) : ℚ) * 10 ^ (stripZeros d p).2 = (d : ℚ) * 10 ^ p :=
  stripZerosGo_spec 400 d p hd

theorem pow5_mul_pow10 (k : ℕ) (t : ℤ) (h : (k : ℤ) = -t) :
    ((5:ℚ) ^ k) * (10:ℚ) ^ t = (2:ℚ) ^ t := by
  rw [show ((10:ℚ)) = 2 * 5 from by norm_num, mul_zpow]
  rw [← zpow_natCast (5:ℚ) k, h]
  rw [mul_comm ((2:ℚ) ^ t) ((5:ℚ) ^ t), ← mul_assoc, ← zpow_add₀ (by norm_num : (5:ℚ) ≠ 0)]
  simp

theorem exactPair_spec (x : F32) (hnz : ¬(x.ex.val = 0 ∧ x.frac.val = 0)) :
    1 ≤ (exactPair x).1 ∧ (exactPair x).1 < 10 ^ 400 ∧
      (((exactPair x).1 : ℕ) : ℚ) * 10 ^ (exactPair x).2 = x.mag := by
  have hfr := x.frac.isLt
  have hex := x.ex.isLt
  have hten : (10 : ℚ) = 2 * 5 := by norm_num
  simp only [exactPair]
  split_ifs with he ht ht
  · exact absurd ht (by omega)
  · -- subnormal: (frac * 5 ^ 149) * 10 ^ (-149)
    have hf1 : 1 ≤ x.frac.val := by omega
    have htn : ((-(-149 : ℤ)).toNat) = 149 := rfl
    refine ⟨?_, ?_, ?_⟩ <;> dsimp only <;> rw [htn]
    · show 0 < x.frac.val * 5 ^ 149
      positivity
    · have hle : x.frac.val * 5 ^ 149 ≤ 8388607 * 5 ^ 149 :=
        Nat.mul_le_mul_right _ (by omega)
      exact lt_of_le_of_lt hle (by norm_num)
    · unfold F32.mag
      rw [if_pos he]
      rw [Nat.cast_mul, Nat.cast_pow]
      rw [show (((5 : ℕ)) : ℚ) = (5 : ℚ) from by norm_num]
      rw [mul_assoc, pow5_mul_pow10 149 (-149) (by norm_num)]
  · -- large normal: (M * 2 ^ (ex - 150)) * 10 ^ 0
    have h150 : 150 ≤ x.ex.val := by omega
    have htn : ((x.ex.val : ℤ) - 150).toNat = x.ex.val - 150 := by omega
    refine ⟨?_, ?_, ?_⟩ <;> dsimp only <;> rw [htn]
    · show 0 < (8388608 + x.frac.val) * 2 ^ (x.ex.val - 150)
      positivity
    · have hle : (8388608 + x.frac.val) * 2 ^ (x.ex.val - 150) ≤ 16777215 * 2 ^ 105 := by
        apply Nat.mul_le_mul (by omega)
        apply Nat.pow_le_pow_right (by norm_num)
        omega
      exact lt_of_le_of_lt hle (by norm_num)
    · unfold F32.mag
      rw [if_neg he]
      rw [zpow_zero, mul_one]
      rw [Nat.cast_mul, Nat.cast_pow]
      rw [show (((2 : ℕ)) : ℚ) = (2 : ℚ) from by norm_num]
      rw [← zpow_natCast (2 : ℚ) (x.ex.val - 150)]
      rw [show (((x.ex.val - 150 : ℕ)) : ℤ) = (x.ex.val : ℤ) - 150 from by omega]
  · -- small normal: (M * 5 ^ (150 - ex)) * 10 ^ (ex - 150)
    have h150 : x.ex.val < 150 := by omega
    have htn : (-((x.ex.val : ℤ) - 150)).toNat = 150 - x.ex.val := by omega
    refine ⟨?_, ?_, ?_⟩ <;> dsimp only <;> rw [htn]
    · show 0 < (8388608 + x.frac.val) * 5 ^ (150 - x.ex.val)
      positivity
    · have hle : (8388608 + x.frac.val) * 5 ^ (150 - x.ex.val) ≤ 16777215 * 5 ^ 150 := by
        apply Nat.mul_le_mul (by omega)
        apply Nat.pow_le_pow_right (by norm_num)
        omega
      exact lt_of_le_of_lt hle (by norm_num)
    · unfold F32.mag
      rw [if_neg he]
      rw [Nat.cast_mul, Nat.cast_pow]
      rw [show (((5 : ℕ)) : ℚ) = (5 : ℚ) from by norm_num]
      rw [mul_assoc, pow5_mul_pow10 (150 - x.ex.val) ((x.ex.val : ℤ) - 150) (by omega)]

theorem parseF32_renderPair_exact (x : F32) (hfin : x.ex.val < 255)
    (hnz : ¬(x.ex.val = 0 ∧ x.frac.val = 0)) :
    parseF32 (renderPair x.sign (exactPair x).1 (exactPair x).2) = Outcome.ok (x, []) := by
  obtain ⟨h1, h2, h3⟩ := exactPair_spec x hnz
  obtain ⟨hs1, hs2, hs3⟩ := stripZeros_spec (exactPair x).1 (exactPair x).2 h1
  have hb : (stripZeros (exactPair x).1 (exactPair x).2).1 < 10 ^ 400 := lt_of_le_of_lt hs2 h2
  obtain ⟨f, hp, hfden, hfval⟩ := parseF32_renderPlain x.sign _ _ hs1 hb
  unfold renderPair
  rw [hp]
  have hval : f.toRat = x.mag := by
    rw [hfval, hs3, h3]
  rw [roundSigned_eq x f hfden hval hfin hnz]

/-- Round-trip of the minimal formatter: parsing the formatted text of any
finite binary32 value reproduces the bit pattern exactly and consumes the
entire string. -/
theorem parseF32_format32 (x : F32) (hfin : x.ex.val < 255) :
    parseF32 (format32 x) = Outcome.ok (x, []) := by
  by_cases h0 : x.fval.num = 0
  · obtain ⟨he, hf⟩ := (F32.fval_num_eq_zero_iff x).mp h0
    have hx : x = ⟨x.sign, 0, 0⟩ := by
      refine F32.ext rfl ?_ ?_ <;> apply Fin.ext
      · exact he
      · exact hf
    rw [hx]
    cases hs : x.sign
    · decide
    · decide
  · have hnz : ¬(x.ex.val = 0 ∧ x.frac.val = 0) := fun h =>
      h0 ((F32.fval_num_eq_zero_iff x).mpr h)
    simp only [format32]
    rw [if_neg h0]
    cases hfind : (formatCands x).find? (formatOk x) with
    | some c =>
      have hok := List.find?_some hfind
      exact of_decide_eq_true hok
    | none =>
      exfalso
      have hmem : exactPair x ∈ formatCands x := by
        unfold formatCands
        simp
      have hfalse := List.find?_eq_none.mp hfind _ hmem
      apply hfalse
      exact decide_eq_true (parseF32_renderPair_exact x hfin hnz)

/-! Sweep and discovery lemmas. -/

theorem measurePoints_append (a b : List Cmd) :
    measurePoints (a ++ b) = measurePoints a ++ measurePoints b :=
  List.filterMap_append a b _

theorem measurePoints_sweepCmds (pts : List F32) : measurePoints (sweepCmds pts) = pts := by
  induction pts with
  | nil => rfl
  | cons v t ih =>
    have hstep : sweepCmds (v :: t) = Cmd.setVoltage v :: Cmd.measure v :: sweepCmds t := rfl
    rw [hstep]
    have h2 : measurePoints (Cmd.setVoltage v :: Cmd.measure v :: sweepCmds t)
        = v :: measurePoints (sweepCmds t) := rfl
    rw [h2, ih]

theorem record_ok (p : IvCurveRecordingParameters) (resp : ℕ → F32 × F32)
    (hsign : p.current_limit.sign = false)
    (hle : F32.le (currentGetMilliamps p.current_limit) f40F32 = true) :
    record p resp = Outcome.ok
      ([Cmd.setVoltage p.start_voltage, Cmd.setCurrentLimit p.current_limit,
        Cmd.enable, Cmd.setOverSampleRate p.over_sampling]
        ++ sweepCmds (linspaceF32 p.start_voltage p.end_voltage p.voltage_steps)
        ++ [Cmd.disable],
       (List.range p.voltage_steps).map resp) := by
  unfold record
  have hnew : SetCurrentLimitRequest.new p.current_limit = Outcome.ok ⟨p.current_limit⟩ := by
    unfold SetCurrentLimitRequest.new
    rw [if_pos hsign, if_pos hle]
  rw [hnew]

/-! Claim theorems. -/

/-- Claim C1: formatting the single-precision value 1e-9 with the codec's
numeric formatter yields the decimal string `0.000000001`, and parsing it
back reproduces the original f32 bit pattern exactly with the entire
string consumed; more generally, formatting any finite single-precision
value and parsing the result reproduces the original value. -/
theorem usmu_c1_numeric_roundtrip :
    (format32 oneNanoAmp = ['0', '.', '0', '0', '0', '0', '0', '0', '0', '0', '1'] ∧
      parseF32 (format32 oneNanoAmp) = Outcome.ok (oneNanoAmp, [])) ∧
    ∀ x : F32, x.IsFinite → parseF32 (format32 x) = Outcome.ok (x, []) :=
  ⟨⟨by decide, by decide⟩, fun x hx => parseF32_format32 x hx⟩

/-- Witness for C1 at the concrete value 1e-9. -/
theorem usmu_c1_numeric_roundtrip_witness :
    F32.IsFinite oneNanoAmp ∧ parseF32 (format32 oneNanoAmp) = Outcome.ok (oneNanoAmp, []) :=
  ⟨by show oneNanoAmp.ex.val < 255; decide,
    usmu_c1_numeric_roundtrip.2 oneNanoAmp (by show oneNanoAmp.ex.val < 255; decide)⟩

/-- Claim C2: evaluation of the discovery selection at the failing inputs.
When the port-path selector matches zero of two candidates, and when the
identity selector matches both of two candidates, `connect` hits
`assert_eq!(ports.len(), 1)` and aborts instead of returning the NotFound
or Ambiguous error the claim requires. -/
theorem usmu_c2_discovery_filter_asserts :
    connect [portA, portB] (some ['t', 't', 'y', '9']) none = ConnectOutcome.panicked ∧
    connect [portA, portB1] none (some ['1']) = ConnectOutcome.panicked := by
  constructor <;> decide

/-- Counterexample to claim C3 as stated: with exactly one candidate and a
port-path selector that does not match it, the candidate is not selected;
the code filters first and aborts on the exactly-one assertion. -/
theorem usmu_c3_counterexample :
    connect [portA] (some ['t', 't', 'y', '9']) none = ConnectOutcome.panicked := by
  decide

/-- Claim C3 (amended): with exactly one candidate, that candidate is
selected and connected provided every given selector matches it (and
always when no selector is given); with zero candidates the result is the
NotFound error. -/
theorem usmu_c3_discovery_single_candidate :
    (∀ (c : PortCandidate) (ps ss : Option (List Char)),
      (ps = none ∨ ps = some c.portName) → (ss = none ∨ ss = some c.serial) →
        connect [c] ps ss = ConnectOutcome.connected c) ∧
    (∀ ps ss : Option (List Char), connect [] ps ss = ConnectOutcome.notFound) := by
  constructor
  · intro c ps ss hps hss
    unfold connect
    rw [if_neg (by simp)]
    rw [if_neg (by simp)]
    rcases hps with rfl | rfl <;> rcases hss with rfl | rfl <;> simp [List.filter]
  · intro ps ss
    rfl

/-- Witness for C3 with a matching port selector on a single candidate. -/
theorem usmu_c3_discovery_single_candidate_witness :
    ((some portA.portName : Option (List Char)) = none ∨
      (some portA.portName : Option (List Char)) = some portA.portName) ∧
    ((none : Option (List Char)) = none ∨ (none : Option (List Char)) = some portA.serial) ∧
    connect [portA] (some portA.portName) none = ConnectOutcome.connected portA :=
  ⟨Or.inr rfl, Or.inl rfl,
    usmu_c3_discovery_single_candidate.1 portA (some portA.portName) none (Or.inr rfl)
      (Or.inl rfl)⟩

/-- Counterexample to claim C4 as stated: constructing `SetCurrentLimit`
with -1 mA is a process abort (a failed `assert!`), not a reportable
ConfigurationError value. -/
theorem usmu_c4_counterexample :
    SetCurrentLimitRequest.new (currentFromMilliamps (roundF ⟨-1, 1⟩)) = Outcome.panicked ∧
    SetCurrentLimitRequest.new (currentFromMilliamps (roundF ⟨-1, 1⟩)) ≠
      Outcome.err ErrKind.configurationError := by
  constructor <;> decide

/-- Claim C4 (amended): constructing `SetCurrentLimit` with -1 mA or
100 mA aborts via a failed assertion (nothing is serialized), while +0 mA
and 40 mA succeed; in general construction succeeds exactly when the f32
sign bit is positive and the value converted back to milliamps compares
at most 40. -/
theorem usmu_c4_current_limit_domain :
    SetCurrentLimitRequest.new (currentFromMilliamps (roundF ⟨-1, 1⟩)) = Outcome.panicked ∧
    SetCurrentLimitRequest.new (currentFromMilliamps (roundF ⟨100, 1⟩)) = Outcome.panicked ∧
    SetCurrentLimitRequest.new (currentFromMilliamps (roundF ⟨0, 1⟩)) =
      Outcome.ok ⟨currentFromMilliamps (roundF ⟨0, 1⟩)⟩ ∧
    SetCurrentLimitRequest.new (currentFromMilliamps (roundF ⟨40, 1⟩)) =
      Outcome.ok ⟨currentFromMilliamps (roundF ⟨40, 1⟩)⟩ ∧
    ∀ limit : F32, SetCurrentLimitRequest.new limit = Outcome.ok ⟨limit⟩ ↔
      (limit.sign = false ∧ F32.le (currentGetMilliamps limit) f40F32 = true) := by
  refine ⟨by decide, by decide, by decide, by decide, ?_⟩
  intro limit
  unfold SetCurrentLimitRequest.new
  constructor
  · intro h
    split_ifs at h with h1 h2
    exact ⟨h1, h2⟩
  · rintro ⟨h1, h2⟩
    rw [if_pos h1, if_pos h2]

/-- Counterexample to claim C5 as stated: the voltage DAC command accepts
the 13-bit level 4096 at construction and serializes it, while only the
current-limit DAC constructor rejects it (by aborting). -/
theorem usmu_c5_counterexample :
    serializeSetVoltageDac ⟨4096⟩ = ['D', 'A', 'C', ' ', '4', '0', '9', '6'] ∧
    SetCurrentLimitDacRequest.new 4096 = Outcome.panicked := by
  constructor <;> decide

/-- Claim C5 (amended): the 12-bit domain is enforced at construction for
the current-limit DAC command (levels up to 4095 succeed, 4096 aborts, and
in general a u16 level is accepted exactly when it is below 4096); the
voltage DAC command performs no validation and serializes any u16 level. -/
theorem usmu_c5_dac_domain :
    SetCurrentLimitDacRequest.new 4095 = Outcome.ok ⟨4095⟩ ∧
    SetCurrentLimitDacRequest.new 4096 = Outcome.panicked ∧
    (∀ level : ℕ, level < 65536 →
      (SetCurrentLimitDacRequest.new level = Outcome.ok ⟨level⟩ ↔ level < 4096)) ∧
    ∀ level : ℕ, serializeSetVoltageDac ⟨level⟩ = ['D', 'A', 'C', ' '] ++ natChars level := by
  refine ⟨by decide, by decide, ?_, fun level => rfl⟩
  intro level hlevel
  unfold SetCurrentLimitDacRequest.new
  have hsh : level >>> 12 = level / 4096 := by
    rw [Nat.shiftRight_eq_div_pow]
  constructor
  · intro h
    split_ifs at h with h1
    rw [hsh] at h1
    omega
  · intro h
    rw [if_pos (by rw [hsh]; omega)]

/-- Witness for C5 at level 4095. -/
theorem usmu_c5_dac_domain_witness :
    4095 < 65536 ∧ (SetCurrentLimitDacRequest.new 4095 = Outcome.ok ⟨4095⟩ ↔ 4095 < 4096) :=
  ⟨by norm_num, usmu_c5_dac_domain.2.2.1 4095 (by norm_num)⟩

/-- Counterexample to claim C6 as stated: `write_eeprom` is an
unconditional abort (`unimplemented!`), not an UnsupportedOperation error
result. -/
theorem usmu_c6_counterexample :
    writeEeprom 0 pZeroF32 = (Outcome.panicked, []) ∧
    (writeEeprom 0 pZeroF32).1 ≠ Outcome.err ErrKind.unsupportedOperation := by
  constructor <;> decide

/-- Claim C6 (amended): for every address and value, `write_eeprom` always
aborts with an `unimplemented!` panic before anything is sent to the
device. -/
theorem usmu_c6_write_eeprom_aborts :
    ∀ (address : ℕ) (value : F32), writeEeprom address value = (Outcome.panicked, []) :=
  fun _ _ => rfl

/-- Counterexample to claim C7 as stated: the sweep set-points are not
always inclusive of the end voltage. Sweeping 0 V to 1 V in 48 steps, the
last commanded set-point is the f32 value 0.99999994, not 1.0. -/
theorem usmu_c7_counterexample :
    sweepConfig48.end_voltage = fOneF32 ∧
    (recordedSetpoints sweepConfig48 respZeroDevice).getLast? = some f32BelowOne ∧
    f32BelowOne ≠ fOneF32 := by
  refine ⟨rfl, by decide, by decide⟩

/-- Claim C7 (amended): for every sweep configuration with a valid current
limit, the sweep issues one set-voltage plus one measurement per step at
the f32 linspace points `start + i * ((end - start) / (n - 1))`, producing
`voltage_steps` samples in step order; the end point is reached only up to
f32 rounding, and in the concrete case start = -1 V, end = 1 V, steps = 50
the 50 set-points do run from exactly -1 V to exactly 1 V. -/
theorem usmu_c7_sweep_setpoints :
    (∀ (p : IvCurveRecordingParameters) (resp : ℕ → F32 × F32),
      p.current_limit.sign = false →
      F32.le (currentGetMilliamps p.current_limit) f40F32 = true →
      ∃ tr, record p resp = Outcome.ok (tr, (List.range p.voltage_steps).map resp) ∧
        measurePoints tr = linspaceF32 p.start_voltage p.end_voltage p.voltage_steps ∧
        (linspaceF32 p.start_voltage p.end_voltage p.voltage_steps).length =
          p.voltage_steps) ∧
    ((linspaceF32 fNegOneF32 fOneF32 50).length = 50 ∧
      (linspaceF32 fNegOneF32 fOneF32 50).head? = some fNegOneF32 ∧
      (linspaceF32 fNegOneF32 fOneF32 50).getLast? = some fOneF32) := by
  constructor
  · intro p resp hsign hle
    refine ⟨_, record_ok p resp hsign hle, ?_, ?_⟩
    · rw [measurePoints_append, measurePoints_append, measurePoints_sweepCmds]
      have h1 : measurePoints [Cmd.setVoltage p.start_voltage,
        Cmd.setCurrentLimit p.current_limit, Cmd.enable,
        Cmd.setOverSampleRate p.over_sampling] = [] := rfl
      have h2 : measurePoints [Cmd.disable] = [] := rfl
      rw [h1, h2]
      simp
    · unfold linspaceF32
      rw [List.length_map, List.length_range]
  · exact ⟨by decide, by decide, by decide⟩

/-- Witness for C7 at the default -1 V to 1 V, 50-step configuration. -/
theorem usmu_c7_sweep_setpoints_witness :
    sweepConfig50.current_limit.sign = false ∧
    F32.le (currentGetMilliamps sweepConfig50.current_limit) f40F32 = true ∧
    ∃ tr, record sweepConfig50 respZeroDevice =
        Outcome.ok (tr, (List.range sweepConfig50.voltage_steps).map respZeroDevice) ∧
      measurePoints tr = linspaceF32 sweepConfig50.start_voltage sweepConfig50.end_voltage
        sweepConfig50.voltage_steps ∧
      (linspaceF32 sweepConfig50.start_voltage sweepConfig50.end_voltage
        sweepConfig50.voltage_steps).length = sweepConfig50.voltage_steps :=
  ⟨by decide, by decide,
    usmu_c7_sweep_setpoints.1 sweepConfig50 respZeroDevice (by decide) (by decide)⟩

/-- Unfolding lemma for `queryDecode` when the deserializer result is known. -/
theorem queryDecode_ok_eq {α : Type} (deser : List Char → Outcome (α × List Char))
    (line : List Char) (r : α) (rest : List Char) (h : deser line = Outcome.ok (r, rest)) :
    queryDecode deser line =
      match matchLiteral ['\n'] rest with
      | Outcome.ok rest2 =>
        match checkEmpty rest2 with
        | Outcome.ok _ => Outcome.ok r
        | Outcome.err e => Outcome.err e
        | Outcome.panicked => Outcome.panicked
      | Outcome.err e => Outcome.err e
      | Outcome.panicked => Outcome.panicked := by
  unfold queryDecode
  rw [h]

/-- Claim C8: for every query whose response deserializer succeeds leaving
a remainder, the query succeeds exactly when the remainder is the bare
line terminator; a remainder that does not start with the terminator fails
with UnexpectedToken, and content after the terminator fails with
TrailingData — so a successful query consumes its entire input line. -/
theorem usmu_c8_query_framing :
    ∀ (α : Type) (deser : List Char → Outcome (α × List Char)) (line : List Char)
      (r : α) (rest : List Char), deser line = Outcome.ok (r, rest) →
      ((queryDecode deser line = Outcome.ok r ↔ rest = ['\n']) ∧
        (rest.take 1 ≠ ['\n'] → queryDecode deser line = Outcome.err ErrKind.unexpectedToken) ∧
        (∀ c cs, rest = '\n' :: c :: cs →
          queryDecode deser line = Outcome.err ErrKind.trailingData)) := by
  intro α deser line r rest h
  rcases rest with _ | ⟨c, cs⟩
  · have hq : queryDecode deser line = Outcome.err ErrKind.unexpectedToken := by
      unfold queryDecode
      rw [h]
      rfl
    rw [hq]
    refine ⟨by simp, fun _ => rfl, ?_⟩
    intro c cs hcs
    cases hcs
  · by_cases hc : c = '\n'
    · subst hc
      rcases cs with _ | ⟨c2, cs2⟩
      · have hq : queryDecode deser line = Outcome.ok r := by
          unfold queryDecode
          rw [h]
          rfl
        rw [hq]
        refine ⟨by simp, ?_, ?_⟩
        · intro hne
          exact absurd rfl hne
        · intro c3 cs3 hcs
          simp at hcs
      · have hq : queryDecode deser line = Outcome.err ErrKind.trailingData := by
          unfold queryDecode
          rw [h]
          rfl
        rw [hq]
        refine ⟨by simp, ?_, fun c3 cs3 hcs => rfl⟩
        intro hne
        exact absurd rfl hne
    · have hml : matchLiteral ['\n'] (c :: cs) = Outcome.err ErrKind.unexpectedToken := by
        unfold matchLiteral
        rw [if_neg]
        intro heq
        have : c = '\n' := by
          have h2 : (c :: cs).take 1 = [c] := rfl
          rw [show (['\n'] : List Char).length = 1 from rfl, h2] at heq
          exact (List.cons.injEq c [] '\n' []).mp heq |>.1
        exact hc this
      have hq : queryDecode deser line = Outcome.err ErrKind.unexpectedToken := by
        rw [queryDecode_ok_eq deser line r (c :: cs) h, hml]
      rw [hq]
      refine ⟨by simp [hc], fun _ => rfl, ?_⟩
      intro c3 cs3 hcs
      have : c = '\n' := (List.cons.injEq c cs '\n' (c3 :: cs3)).mp hcs |>.1
      exact absurd this hc

/-- Witness for C8 with the `CH1:MEA:VOL` measurement deserializer on the
reply line `1.5,0.002` followed by the terminator. -/
theorem usmu_c8_query_framing_witness :
    deserMeasure measureLine = Outcome.ok (⟨f32OnePointFive, f32TwoMilli⟩, ['\n']) ∧
    ((queryDecode deserMeasure measureLine = Outcome.ok ⟨f32OnePointFive, f32TwoMilli⟩ ↔
        (['\n'] : List Char) = ['\n']) ∧
      ((['\n'] : List Char).take 1 ≠ ['\n'] →
        queryDecode deserMeasure measureLine = Outcome.err ErrKind.unexpectedToken) ∧
      (∀ c cs, (['\n'] : List Char) = '\n' :: c :: cs →
        queryDecode deserMeasure measureLine = Outcome.err ErrKind.trailingData)) :=
  ⟨by decide, usmu_c8_query_framing MeasureResponse deserMeasure measureLine
    ⟨f32OnePointFive, f32TwoMilli⟩ ['\n'] (by decide)⟩

/-- Claim C9: constructing `SetCurrentLimit` with the limit -0.0 mA is
rejected by the sign-bit check and aborts, although -0.0 compares
numerically equal to +0.0, which is accepted; acceptance is decided by the
floating-point sign bit, not by numeric comparison with zero. -/
theorem usmu_c9_negative_zero_rejected :
    SetCurrentLimitRequest.new (currentFromMilliamps mZeroF32) = Outcome.panicked ∧
    SetCurrentLimitRequest.new (currentFromMilliamps pZeroF32) =
      Outcome.ok ⟨currentFromMilliamps pZeroF32⟩ ∧
    F32.val (currentFromMilliamps mZeroF32) = F32.val (currentFromMilliamps pZeroF32) ∧
    (currentFromMilliamps mZeroF32).sign = true ∧
    (currentFromMilliamps pZeroF32).sign = false := by
  refine ⟨by decide, by decide, ?_, by decide, by decide⟩
  have h1 : (currentFromMilliamps mZeroF32).fval.num = 0 := by decide
  have h2 : (currentFromMilliamps pZeroF32).fval.num = 0 := by decide
  have e1 := (Frac.toRat_eq_zero_iff _ (F32.fval_den_pos (currentFromMilliamps mZeroF32))).mpr h1
  have e2 := (Frac.toRat_eq_zero_iff _ (F32.fval_den_pos (currentFromMilliamps pZeroF32))).mpr h2
  rw [F32.fval_toRat] at e1 e2
  rw [e1, e2]

/-- Claim C10: the sweep does not validate the step count; with
voltage_steps = 0 (and a valid current limit) it succeeds, returns an
empty sample list, and still issues the four setup commands and the final
disable with no measurement issued. -/
theorem usmu_c10_zero_steps_sweep :
    ∀ (p : IvCurveRecordingParameters) (resp : ℕ → F32 × F32),
      p.voltage_steps = 0 →
      p.current_limit.sign = false →
      F32.le (currentGetMilliamps p.current_limit) f40F32 = true →
      record p resp = Outcome.ok
        ([Cmd.setVoltage p.start_voltage, Cmd.setCurrentLimit p.current_limit,
          Cmd.enable, Cmd.setOverSampleRate p.over_sampling, Cmd.disable], []) := by
  intro p resp h0 hsign hle
  rw [record_ok p resp hsign hle, h0]
  rfl

/-- Witness for C10 at a concrete zero-step configuration. -/
theorem usmu_c10_zero_steps_sweep_witness :
    sweepConfig0.voltage_steps = 0 ∧
    sweepConfig0.current_limit.sign = false ∧
    F32.le (currentGetMilliamps sweepConfig0.current_limit) f40F32 = true ∧
    record sweepConfig0 respZeroDevice = Outcome.ok
      ([Cmd.setVoltage sweepConfig0.start_voltage, Cmd.setCurrentLimit sweepConfig0.current_limit,
        Cmd.enable, Cmd.setOverSampleRate sweepConfig0.over_sampling, Cmd.disable], []) :=
  ⟨rfl, by decide, by decide,
    usmu_c10_zero_steps_sweep sweepConfig0 respZeroDevice rfl (by decide) (by decide)⟩

